import Mathlib

/-!
# Verification of the hibob-updates-monitor core

Shallow embedding of the change-detection engine, the record model and the
history cache of `hibob_monitor` (files `models.py`, `change_detection.py`,
`cache.py`), together with proofs settling the frozen claims about them.

JSON-like Python values (the raw employee records, the parsed cache file)
are embedded as the inductive type `Value`.  Python `==` on such values is
embedded as `pyEq`: structural on scalars and lists, key-based and
insertion-order-insensitive on dicts, with the `bool`/`int` cross-type
equality Python inherits from `bool` being a subclass of `int`.
Floating-point values do not occur in any claim and are not modelled.
Dicts are embedded as association lists; a Python dict never holds two
equal keys, so hypotheses of the form `wfV v = true` (no duplicate keys,
recursively) restrict a statement to the association lists that denote
actual Python dicts.
-/

inductive Value where
  | null : Value
  | bool : Bool → Value
  | int : Int → Value
  | str : String → Value
  | list : List Value → Value
  | dict : List (String × Value) → Value
deriving Repr

/-- First-occurrence lookup in an association list: Python `d[k]` / `k in d`. -/
def lookup (kvs : List (String × Value)) (k : String) : Option Value :=
  match kvs.find? (fun kv => kv.1 == k) with
  | some kv => some kv.2
  | none => none

/-- Python `d.get(k, default)`. -/
def dictGet (kvs : List (String × Value)) (k : String) (d : Value) : Value :=
  match lookup kvs k with
  | some v => v
  | none => d

theorem lookup_mem {kvs : List (String × Value)} {k : String} {v : Value}
    (h : lookup kvs k = some v) : (k, v) ∈ kvs := by
  unfold lookup at h
  cases hf : kvs.find? (fun kv => kv.1 == k) with
  | none => rw [hf] at h; exact absurd h (by simp)
  | some kv =>
    rw [hf] at h
    have hmem := List.mem_of_find?_eq_some hf
    have hpred := List.find?_some hf
    simp at h hpred
    subst h
    obtain ⟨k1, v1⟩ := kv
    simp at hpred
    subst hpred
    exact hmem

theorem sizeOf_lookup {kvs : List (String × Value)} {k : String} {v : Value}
    (h : lookup kvs k = some v) : sizeOf v < sizeOf kvs := by
  have hmem := lookup_mem h
  have h1 : sizeOf (k, v) < sizeOf kvs := List.sizeOf_lt_of_mem hmem
  have h2 : sizeOf v < sizeOf (k, v) := by
    simp only [Prod.mk.sizeOf_spec]; omega
  omega

theorem sizeOf_dictGet_null (kvs : List (String × Value)) (k : String) :
    sizeOf (dictGet kvs k Value.null) < 1 + sizeOf kvs := by
  have h0 : 0 < sizeOf kvs := by cases kvs <;> simp_arith
  cases hl : lookup kvs k with
  | none =>
    have he : dictGet kvs k Value.null = Value.null := by unfold dictGet; rw [hl]
    rw [he]
    have h1 : sizeOf Value.null = 1 := by simp
    omega
  | some v =>
    have he : dictGet kvs k Value.null = v := by unfold dictGet; rw [hl]
    rw [he]
    have := sizeOf_lookup hl
    omega

/-- Numeric view shared by Python `bool` and `int` (`True == 1` holds in Python). -/
def toNum : Value → Option Int
  | .bool b => some (if b then 1 else 0)
  | .int n => some n
  | _ => none

/-- Backward half of Python dict equality: every key of `kvs2` occurs in `kvs1`. -/
def pyEqDictB (kvs1 kvs2 : List (String × Value)) : Bool :=
  kvs2.all (fun kv => (lookup kvs1 kv.1).isSome)

theorem sizeOf_lookup_le (kvs : List (String × Value)) (k : String) :
    sizeOf (lookup kvs k) ≤ sizeOf kvs := by
  have h0 : 0 < sizeOf kvs := by cases kvs <;> simp_arith
  cases hl : lookup kvs k with
  | none => simp; omega
  | some v =>
    have := sizeOf_lookup hl
    simp
    omega

mutual

/-- Embedding of Python `==` on JSON-like values (`Employee.__eq__` compares
`raw_data` with this; `_deep_diff` short-circuits with it). -/
def pyEq : Value → Value → Bool
  | .null, .null => true
  | .str a, .str b => a == b
  | .list xs, .list ys => pyEqList xs ys
  | .dict kvs1, .dict kvs2 => pyEqDictF kvs1 kvs2 && pyEqDictB kvs1 kvs2
  | a, b =>
    match toNum a, toNum b with
    | some x, some y => x == y
    | _, _ => false
termination_by a b => sizeOf a + sizeOf b
decreasing_by
  all_goals simp_wf
  all_goals omega

/-- Python list equality: pointwise `==`, equal lengths. -/
def pyEqList : List Value → List Value → Bool
  | [], [] => true
  | x :: xs, y :: ys => pyEq x y && pyEqList xs ys
  | _, _ => false
termination_by xs ys => sizeOf xs + sizeOf ys
decreasing_by
  all_goals simp_wf
  all_goals omega

/-- Comparison `v == d[k]` where the key may be absent (absent compares unequal). -/
def pyEqOpt (v : Value) : Option Value → Bool
  | some w => pyEq v w
  | none => false
termination_by o => sizeOf v + sizeOf o
decreasing_by
  all_goals simp_wf
  all_goals omega

/-- Forward half of Python dict equality: every pair of `kvs1` matches `kvs2`. -/
def pyEqDictF : List (String × Value) → List (String × Value) → Bool
  | [], _ => true
  | (k1, v1) :: rest, kvs2 =>
    pyEqOpt v1 (lookup kvs2 k1) && pyEqDictF rest kvs2
termination_by kvs1 kvs2 => sizeOf kvs1 + sizeOf kvs2
decreasing_by
  all_goals simp_wf
  all_goals try omega
  · have := sizeOf_lookup_le kvs2 k1
    omega

end

/-- Python truthiness (`bool(v)`), as used by the `or` chains in
`Employee.from_raw_data`. -/
def pyTruthy : Value → Bool
  | .null => false
  | .bool b => b
  | .int n => n != 0
  | .str s => s != ""
  | .list xs => !xs.isEmpty
  | .dict kvs => !kvs.isEmpty

/-- Python `a or b`: `a` when truthy, else `b`. -/
def pyOr (a b : Value) : Value :=
  if pyTruthy a then a else b

mutual

/-- Python `repr` for the modelled values (escaping inside strings is not
modelled; no claim depends on it). -/
def pyRepr : Value → String
  | .null => "None"
  | .bool b => if b then "True" else "False"
  | .int n => toString n
  | .str s => "\x27" ++ s ++ "\x27"
  | .list xs => "[" ++ pyReprList xs ++ "]"
  | .dict kvs => "\x7b" ++ pyReprKvs kvs ++ "\x7d"
termination_by v => sizeOf v
decreasing_by
  all_goals simp_wf
  all_goals omega

/-- Comma-separated reprs of list elements. -/
def pyReprList : List Value → String
  | [] => ""
  | [x] => pyRepr x
  | x :: y :: xs => pyRepr x ++ ", " ++ pyReprList (y :: xs)
termination_by xs => sizeOf xs
decreasing_by
  all_goals simp_wf
  all_goals omega

/-- Comma-separated quoted `key: value` reprs of dict entries. -/
def pyReprKvs : List (String × Value) → String
  | [] => ""
  | [(k, v)] => "\x27" ++ k ++ "\x27: " ++ pyRepr v
  | (k, v) :: kv2 :: kvs => "\x27" ++ k ++ "\x27: " ++ pyRepr v ++ ", " ++ pyReprKvs (kv2 :: kvs)
termination_by kvs => sizeOf kvs
decreasing_by
  all_goals simp_wf
  all_goals omega

end

/-- Python `str(v)`: identity on strings, `repr`-like on containers. -/
def pyStr : Value → String
  | .str s => s
  | .null => "None"
  | .bool b => if b then "True" else "False"
  | .int n => toString n
  | .list xs => pyRepr (.list xs)
  | .dict kvs => pyRepr (.dict kvs)

/-- No two entries of the association list share a key (every Python dict
satisfies this; association lists violating it denote no Python value). -/
def keysNodup : List (String × Value) → Bool
  | [] => true
  | (k, _) :: rest => rest.all (fun kv => kv.1 != k) && keysNodup rest

mutual

/-- Well-formedness: every dict inside the value has pairwise distinct keys. -/
def wfV : Value → Bool
  | .null => true
  | .bool _ => true
  | .int _ => true
  | .str _ => true
  | .list xs => wfList xs
  | .dict kvs => keysNodup kvs && wfKvs kvs
termination_by v => sizeOf v
decreasing_by
  all_goals simp_wf
  all_goals omega

/-- Conjunction of `wfV` over the elements of a list. -/
def wfList : List Value → Bool
  | [] => true
  | x :: xs => wfV x && wfList xs
termination_by xs => sizeOf xs
decreasing_by
  all_goals simp_wf
  all_goals omega

/-- Conjunction of `wfV` over the values of an association list. -/
def wfKvs : List (String × Value) → Bool
  | [] => true
  | (_, v) :: rest => wfV v && wfKvs rest
termination_by kvs => sizeOf kvs
decreasing_by
  all_goals simp_wf
  all_goals omega

end

/-- The string contains no `'.'` character. -/
def dotFreeStr (s : String) : Bool :=
  s.data.all (fun c => c != '.')

mutual

/-- Every mapping key inside the value is free of `'.'` characters. -/
def dotFreeV : Value → Bool
  | .null => true
  | .bool _ => true
  | .int _ => true
  | .str _ => true
  | .list xs => dotFreeList xs
  | .dict kvs => dotFreeKvs kvs
termination_by v => sizeOf v
decreasing_by
  all_goals simp_wf
  all_goals omega

/-- Conjunction of `dotFreeV` over the elements of a list. -/
def dotFreeList : List Value → Bool
  | [] => true
  | x :: xs => dotFreeV x && dotFreeList xs
termination_by xs => sizeOf xs
decreasing_by
  all_goals simp_wf
  all_goals omega

/-- Keys dot-free and `dotFreeV` values, along an association list. -/
def dotFreeKvs : List (String × Value) → Bool
  | [] => true
  | (k, v) :: rest => dotFreeStr k && dotFreeV v && dotFreeKvs rest
termination_by kvs => sizeOf kvs
decreasing_by
  all_goals simp_wf
  all_goals omega

end

/-- One leaf-level difference (`models.FieldChange`). In
`_deep_diff(obj1, obj2, ...)` the emitted change carries `old_value=obj1`
and `new_value=obj2`. -/
structure FieldChange where
  field_path : String
  old_value : Value
  new_value : Value

/-- Embeds `extend_path` from `change_detection._deep_diff`. -/
def extendPath (path extra : String) : String :=
  if path = "" then extra else path ++ "." ++ extra

/-- Embeds `itertools.zip_longest(obj1, obj2)` with the default `None` fill value. -/
def zipLongest : List Value → List Value → List (Value × Value)
  | [], [] => []
  | [], y :: ys => (Value.null, y) :: zipLongest [] ys
  | x :: xs, [] => (x, Value.null) :: zipLongest xs []
  | x :: xs, y :: ys => (x, y) :: zipLongest xs ys

theorem mem_zipLongest :
    ∀ {xs ys : List Value} {p : Value × Value}, p ∈ zipLongest xs ys →
      (p.1 ∈ xs ∨ p.1 = Value.null) ∧ (p.2 ∈ ys ∨ p.2 = Value.null)
  | [], [], _, h => by simp [zipLongest] at h
  | [], y :: ys, p, h => by
    simp only [zipLongest, List.mem_cons] at h
    rcases h with h | h
    · subst h; simp
    · have := mem_zipLongest h
      rcases this with ⟨h1, h2⟩
      refine ⟨h1, ?_⟩
      rcases h2 with h2 | h2
      · exact Or.inl (List.mem_cons_of_mem _ h2)
      · exact Or.inr h2
  | x :: xs, [], p, h => by
    simp only [zipLongest, List.mem_cons] at h
    rcases h with h | h
    · subst h; simp
    · have := mem_zipLongest h
      rcases this with ⟨h1, h2⟩
      refine ⟨?_, h2⟩
      rcases h1 with h1 | h1
      · exact Or.inl (List.mem_cons_of_mem _ h1)
      · exact Or.inr h1
  | x :: xs, y :: ys, p, h => by
    simp only [zipLongest, List.mem_cons] at h
    rcases h with h | h
    · subst h; simp
    · have := mem_zipLongest h
      rcases this with ⟨h1, h2⟩
      constructor
      · rcases h1 with h1 | h1
        · exact Or.inl (List.mem_cons_of_mem _ h1)
        · exact Or.inr h1
      · rcases h2 with h2 | h2
        · exact Or.inl (List.mem_cons_of_mem _ h2)
        · exact Or.inr h2

theorem sizeOf_of_mem_or_null {a : Value} {xs : List Value}
    (h : a ∈ xs ∨ a = Value.null) : sizeOf a < sizeOf (Value.list xs) := by
  have hxs : 0 < sizeOf xs := by cases xs <;> simp_arith
  rcases h with h | h
  · have := List.sizeOf_lt_of_mem h
    simp only [Value.list.sizeOf_spec]
    omega
  · subst h
    have h1 : sizeOf Value.null = 1 := by simp
    simp only [Value.list.sizeOf_spec]
    omega

/-- Embeds `set(obj1.keys()) | set(obj2.keys())`; Python iterates the union in an
unspecified order, modelled here as first occurrences left to right. -/
def unionKeys (kvs1 kvs2 : List (String × Value)) : List String :=
  (kvs1.map Prod.fst ++ kvs2.map Prod.fst).dedup

/-- Embeds `change_detection._deep_diff`: recursive structural comparison producing
leaf-level `FieldChange`s, skipping ignored paths, with `None`-padding for
dict keys missing on one side and for index-mismatched lists. -/
def deepDiff (o1 o2 : Value) (path : String) (ign : List String) : List FieldChange :=
  if path ∈ ign then []
  else if pyEq o1 o2 then []
  else
    match o1, o2 with
    | .dict kvs1, .dict kvs2 =>
      (unionKeys kvs1 kvs2).flatMap (fun k =>
        deepDiff (dictGet kvs1 k .null) (dictGet kvs2 k .null) (extendPath path k) ign)
    | .list xs, .list ys =>
      ((zipLongest xs ys).enum).attach.flatMap (fun q =>
        deepDiff q.1.2.1 q.1.2.2 (extendPath path ("[" ++ toString q.1.1 ++ "]")) ign)
    | _, _ => [⟨path, o1, o2⟩]
termination_by sizeOf o1 + sizeOf o2
decreasing_by
  · have h1 := sizeOf_dictGet_null kvs1 k
    have h2 := sizeOf_dictGet_null kvs2 k
    simp_wf
    omega
  · rename_i hq
    obtain ⟨⟨i, a, b⟩, hmem⟩ := q
    have hmem2 : ((i, a, b) : Nat × Value × Value) ∈ (zipLongest xs ys).enum := hmem
    have hz : (a, b) ∈ zipLongest xs ys := by
      have := List.mem_enum_iff_getElem?.mp hmem2
      exact List.getElem?_mem this
    have hab := mem_zipLongest hz
    have ha := sizeOf_of_mem_or_null hab.1
    have hb := sizeOf_of_mem_or_null hab.2
    simp_wf
    simp only [Value.list.sizeOf_spec] at ha hb
    omega

/-- Embeds `config.IGNORED_EMPLOYEE_PATHS`. -/
def IGNORED_EMPLOYEE_PATHS : List String :=
  ["work.yearsOfService", "work.durationOfEmployment", "work.tenureDurationYears",
   "work.tenureDuration", "work.tenureYears", "payroll.timeSinceLastSalaryChange",
   "avatarUrl", "about.avatar", "work.directReports", "work.indirectReports",
   "employee.orgLevel", "work.reportsTo.surname", "work.reportsTo.firstName",
   "work.reportsTo.id", "work.secondLevelManager", "work.manager"]

/-- Embeds `models.Employee`: derived display fields plus the original raw record.
The Python annotations (`email: str`, ...) are not enforced at runtime, and the
`or` chains in `from_raw_data` can produce non-string values, so the derived
fields that flow through `or` are modelled as `Value`. -/
structure Employee where
  id : String
  email : Value
  full_name : Value
  status : String
  department : String
  site : String
  raw_data : Value

/-- Embeds `models.Employee.from_raw_data`.  Raises (`.error`) exactly where Python
does: on a non-dict record (`raw_data.get` → `AttributeError`) and on a
record whose `"work"` value is present but not a dict (the `department`/`site`
lines call `.get` on it unconditionally → `AttributeError`). -/
def Employee.from_raw_data (raw : Value) : Except String Employee :=
  match raw with
  | .dict kvs =>
    let empId := pyStr (dictGet kvs "id" (.str ""))
    let email :=
      match dictGet kvs "work" .null with
      | .dict wkvs => pyOr (dictGet kvs "email" (.str "")) (dictGet wkvs "email" (.str ""))
      | _ => pyOr (pyOr (.str "") (dictGet kvs "personalEmail" (.str ""))) (.str "")
    let fullName :=
      pyOr (pyOr (pyOr (pyOr (dictGet kvs "fullName" (.str ""))
                             (dictGet kvs "displayName" (.str "")))
                       (dictGet kvs "name" (.str "")))
                 (.str ((pyStr (dictGet kvs "firstName" (.str "")) ++ " " ++
                         pyStr (dictGet kvs "lastName" (.str ""))).trim)))
           (.str "Unknown")
    let status := (pyStr (dictGet kvs "status" (.str "active"))).toLower
    match dictGet kvs "work" (.dict []) with
    | .dict wkvs =>
      .ok { id := empId, email := email, full_name := fullName, status := status,
            department := (pyStr (dictGet wkvs "department" (.str ""))).trim,
            site := (pyStr (dictGet wkvs "site" (.str ""))).trim,
            raw_data := raw }
    | _ => .error "AttributeError: object has no attribute get"
  | _ => .error "AttributeError: object has no attribute get"

/-- Embeds `models.EmployeeList`: capture timestamp, element count, employees.
`datetime` values are modelled by their ISO string; `count` is copied
verbatim from persisted data by `from_dict`, hence a `Value`. -/
structure EmployeeList where
  timestamp : String
  count : Value
  employees : List Employee

/-- Embeds `models.Employee.__eq__`: equality is deep equality of `raw_data`. -/
def empEq (e1 e2 : Employee) : Bool :=
  pyEq e1.raw_data e2.raw_data

/-- Python `==` on lists of employees: pointwise `Employee.__eq__`. -/
def empListEqB : List Employee → List Employee → Bool
  | [], [] => true
  | x :: xs, y :: ys => empEq x y && empListEqB xs ys
  | _, _ => false

/-- Embeds `models.EmployeeList.__eq__`: employee sequences equal, timestamp ignored. -/
def elEq (l1 l2 : EmployeeList) : Bool :=
  empListEqB l1.employees l2.employees

/-- Embeds `models.EmployeeList.from_raw_data`; `datetime.now()` is passed in as `now`. -/
def EmployeeList.from_raw_data (now : String) (employeesData : List Value) :
    Except String EmployeeList := do
  let employees ← employeesData.mapM Employee.from_raw_data
  .ok ⟨now, .int employees.length, employees⟩

/-- Embeds `models.EmployeeList.to_dict`: timestamp ISO string, count, raw records. -/
def EmployeeList.to_dict (l : EmployeeList) : Value :=
  .dict [("timestamp", .str l.timestamp),
         ("count", l.count),
         ("employees", .list (l.employees.map (fun e => e.raw_data)))]

/-- Python `for x in v`: lists yield elements, strings yield one-character
strings, dicts yield their keys; other values raise `TypeError`. -/
def pyIter (v : Value) : Except String (List Value) :=
  match v with
  | .list xs => .ok xs
  | .str s => .ok (s.data.map (fun c => .str (String.singleton c)))
  | .dict kvs => .ok (kvs.map (fun kv => .str kv.1))
  | _ => .error "TypeError: object is not iterable"

/-- Embeds `models.EmployeeList.from_dict`.  `data["timestamp"]` raises `KeyError`
when missing and `TypeError` on a non-dict; `datetime.fromisoformat` raises
`TypeError` on a non-string (its string-format validation is not modelled:
every string is treated as parseable, which is exact on every input used
here since persisted timestamps are `isoformat` output). -/
def EmployeeList.from_dict (data : Value) : Except String EmployeeList :=
  match data with
  | .dict kvs =>
    match lookup kvs "timestamp" with
    | none => .error "KeyError: timestamp"
    | some tv =>
      match tv with
      | .str ts => do
        let vals ← pyIter (dictGet kvs "employees" (.list []))
        let employees ← vals.mapM Employee.from_raw_data
        .ok ⟨ts, dictGet kvs "count" (.int employees.length), employees⟩
      | _ => .error "TypeError: fromisoformat argument must be str"
  | _ => .error "TypeError: indices must be integers"

/-- Embeds `models.ModifiedEmployee`: all six `EmployeeDescription` fields are
required (no defaults) plus the change list. `compare_employee_lists` tries
to construct it with only `id`, `email`, `full_name` and `changes`. -/
structure ModifiedEmployee where
  id : String
  email : Value
  full_name : Value
  status : String
  department : String
  site : String
  changes : List FieldChange

/-- Embeds `models.ChangeReport`. -/
structure ChangeReport where
  current_timestamp : String
  previous_timestamp : String
  added : List Employee
  removed : List Employee
  modified : List ModifiedEmployee

/-- Embeds `ChangeReport.total_changes`. -/
def ChangeReport.total_changes (r : ChangeReport) : Nat :=
  r.added.length + r.removed.length + r.modified.length

/-- Embeds `ChangeReport.has_changes`. -/
def ChangeReport.has_changes (r : ChangeReport) : Bool :=
  r.total_changes > 0

/-- Embeds `change_detection._get_employee_key`. -/
def get_employee_key (e : Employee) : String × Value :=
  (e.id, e.email)

/-- Python `==` on `(id, email)` keys (tuple equality, componentwise `==`). -/
def keyEq (a b : String × Value) : Bool :=
  a.1 == b.1 && pyEq a.2 b.2

/-- One step of Python dict-comprehension insertion: an existing equal key
keeps its position and gets the new value, a new key is appended. -/
def indexInsert (acc : List ((String × Value) × Employee)) (k : String × Value)
    (e : Employee) : List ((String × Value) × Employee) :=
  if acc.any (fun kv => keyEq kv.1 k) then
    acc.map (fun kv => if keyEq kv.1 k then (kv.1, e) else kv)
  else
    acc ++ [(k, e)]

/-- Embeds `change_detection._build_employee_index`: insertion-ordered dict keyed by
`(id, email)`, last write wins. -/
def build_employee_index (emps : List Employee) : List ((String × Value) × Employee) :=
  emps.foldl (fun acc e => indexInsert acc (get_employee_key e) e) []

/-- Membership of a key in an index (Python `in` / set membership). -/
def indexHasKey (idx : List ((String × Value) × Employee)) (k : String × Value) : Bool :=
  idx.any (fun kv => keyEq kv.1 k)

/-- Python `index[key]`. -/
def indexLookup (idx : List ((String × Value) × Employee)) (k : String × Value) :
    Option Employee :=
  (idx.find? (fun kv => keyEq kv.1 k)).map (fun kv => kv.2)

/-- Embeds `change_detection._compare_employee_data`: note the argument order —
`_deep_diff(current.raw_data, previous.raw_data)`, so an emitted change has
`old_value` taken from the *current* snapshot and `new_value` from the
*previous* one. -/
def compare_employee_data (current previous : Employee) : List FieldChange :=
  deepDiff current.raw_data previous.raw_data "" IGNORED_EMPLOYEE_PATHS

/-- Embeds `change_detection.compare_employee_lists`.  For each key present in both
snapshots with a non-empty field-change list, the source executes
`ModifiedEmployee(id=..., email=..., full_name=..., changes=...)`, which
raises `TypeError` because `status`, `department` and `site` are required
fields of the dataclass; the exception propagates to the caller, modelled as
`.error`.  With no modified employees the report is returned normally. -/
def compare_employee_lists (current previous : EmployeeList) :
    Except String ChangeReport :=
  let current_index := build_employee_index current.employees
  let previous_index := build_employee_index previous.employees
  let added := (current_index.filter
      (fun kv => !indexHasKey previous_index kv.1)).map (fun kv => kv.2)
  let removed := (previous_index.filter
      (fun kv => !indexHasKey current_index kv.1)).map (fun kv => kv.2)
  let anyModified := current_index.any (fun kv =>
    indexHasKey previous_index kv.1 &&
    (match indexLookup previous_index kv.1 with
     | some pe => !(compare_employee_data kv.2 pe).isEmpty
     | none => false))
  if anyModified then
    .error "TypeError: ModifiedEmployee missing 3 required positional arguments: status, department, and site"
  else
    .ok ⟨current.timestamp, previous.timestamp, added, removed, []⟩

/-- Embeds `cache.CacheConfig`.  `max_entries` is a Python `int`, which may be zero
or negative — nothing in the source restricts it. -/
structure CacheConfig where
  max_entries : Int := 5
  deduplicate_consecutive : Bool := true

/-- State of the cache file on disk as observable by `cache.py`: absent,
unreadable (opening/reading raises `OSError`), readable but not valid JSON
(`json.load` raises `JSONDecodeError`), or readable with parsed content `v`. -/
inductive CacheFile where
  | missing : CacheFile
  | ioError : CacheFile
  | badJson : CacheFile
  | json : Value → CacheFile

/-- Embeds `cache.load_cache`.  The `try` block catches exactly `OSError` and
`json.JSONDecodeError`; any exception raised by `EmployeeList.from_dict` on
malformed-but-valid-JSON content (KeyError, TypeError, ...) propagates, as
does the `AttributeError` from `data.get` on a non-dict top level. -/
def load_cache (f : CacheFile) : Except String (List EmployeeList) :=
  match f with
  | .missing => .ok []
  | .ioError => .ok []
  | .badJson => .ok []
  | .json data =>
    match data with
    | .dict kvs => do
      let entries ← pyIter (dictGet kvs "entries" (.list []))
      entries.mapM EmployeeList.from_dict
    | _ => .error "AttributeError: object has no attribute get"

/-- Embeds `cache.get_latest_cache`: the tail of the loaded sequence, or `None`. -/
def get_latest_cache (f : CacheFile) : Except String (Option EmployeeList) :=
  (load_cache f).map (fun entries => entries.getLast?)

/-- Emission of one group by `cache._deduplicate_consecutive`: a singleton
group stays as-is, a longer group contributes its first and last entries. -/
def flushGroup : List EmployeeList → List EmployeeList
  | [] => []
  | [x] => [x]
  | x :: y :: ys => [x, (y :: ys).getLastD x]

/-- Loop of `cache._deduplicate_consecutive` over the remaining entries,
carrying `current_group` (never empty while running). -/
def dedupGo (group : List EmployeeList) : List EmployeeList → List EmployeeList
  | [] => flushGroup group
  | e :: rest =>
    match group.getLast? with
    | some glast =>
      if elEq e glast then dedupGo (group ++ [e]) rest
      else flushGroup group ++ dedupGo [e] rest
    | none => dedupGo [e] rest

/-- Embeds `cache._deduplicate_consecutive`. -/
def deduplicate_consecutive (entries : List EmployeeList) : List EmployeeList :=
  match entries with
  | [] => []
  | e :: rest => dedupGo [e] rest

/-- Python `xs[start:]` for an arbitrary (possibly negative) `start`; note
`xs[-0:]` is `xs[0:]`, i.e. the whole list. -/
def pySliceFrom (start : Int) (xs : List EmployeeList) : List EmployeeList :=
  if start < 0 then xs.drop (((xs.length : Int) + start).toNat)
  else xs.drop start.toNat

/-- Trim step of `cache.save_cache`: `all_entries[-config.max_entries:]`
when the length exceeds `max_entries`. -/
def trimEntries (cfg : CacheConfig) (xs : List EmployeeList) : List EmployeeList :=
  if (xs.length : Int) > cfg.max_entries then pySliceFrom (-cfg.max_entries) xs
  else xs

/-- JSON object written by `cache.save_cache`. -/
def cacheData (cfg : CacheConfig) (entries : List EmployeeList) : Value :=
  .dict [("cache_config",
           .dict [("max_entries", .int cfg.max_entries),
                  ("deduplicate_consecutive", .bool cfg.deduplicate_consecutive)]),
         ("entries", .list (entries.map EmployeeList.to_dict))]

/-- Embeds `cache.save_cache` as a file-state transformer.  The internal
`load_cache` call sits inside a `try` that catches only `OSError`, so an
exception it raises on malformed content propagates (`.error`) and the file
is left unchanged; a write-side `OSError` is caught and logged (writes
themselves are modelled as succeeding).  On success the new file holds the
deduplicated, trimmed sequence together with the config. -/
def save_cache (employee_list : EmployeeList) (f : CacheFile) (cfg : CacheConfig) :
    Except String CacheFile := do
  let existing_entries ← load_cache f
  let all_entries := existing_entries ++ [employee_list]
  let all_entries :=
    if cfg.deduplicate_consecutive then deduplicate_consecutive all_entries
    else all_entries
  let all_entries := trimEntries cfg all_entries
  .ok (.json (cacheData cfg all_entries))

/-- The `entries` array currently persisted in the cache file, when the file
holds a JSON object with one. -/
def persistedEntries (f : CacheFile) : Option (List Value) :=
  match f with
  | .json (.dict kvs) =>
    match lookup kvs "entries" with
    | some (.list xs) => some xs
    | _ => none
  | _ => none

/-! ## Properties of consecutive deduplication (claim C10) -/

theorem flushGroup_sublist (g : List EmployeeList) : (flushGroup g).Sublist g := by
  match g with
  | [] => simp [flushGroup]
  | [x] => simp [flushGroup]
  | x :: y :: ys =>
    simp only [flushGroup]
    refine List.Sublist.cons₂ x ?_
    rw [List.singleton_sublist, List.getLastD_eq_getLast?]
    have hne : y :: ys ≠ [] := by simp
    rw [List.getLast?_eq_getLast _ hne]
    simpa using List.getLast_mem hne

theorem flushGroup_ne_nil {g : List EmployeeList} (h : g ≠ []) : flushGroup g ≠ [] := by
  match g with
  | [] => exact absurd rfl h
  | [x] => simp [flushGroup]
  | x :: y :: ys => simp [flushGroup]

theorem flushGroup_head? {g : List EmployeeList} (h : g ≠ []) :
    (flushGroup g).head? = g.head? := by
  match g with
  | [] => exact absurd rfl h
  | [x] => simp [flushGroup]
  | x :: y :: ys => simp [flushGroup]

theorem flushGroup_getLast? {g : List EmployeeList} (h : g ≠ []) :
    (flushGroup g).getLast? = g.getLast? := by
  match g with
  | [] => exact absurd rfl h
  | [x] => simp [flushGroup]
  | x :: y :: ys =>
    simp only [flushGroup]
    have h1 : (y :: ys).getLast?.isSome = true := List.getLast?_isSome.mpr (by simp)
    obtain ⟨z, hz⟩ := Option.isSome_iff_exists.mp h1
    rw [List.getLastD_eq_getLast?, hz]
    have h2 : (x :: y :: ys).getLast? = (y :: ys).getLast? := by
      rw [List.getLast?_cons_cons]
    rw [h2, hz]
    simp

theorem flushGroup_length (g : List EmployeeList) :
    (flushGroup g).length ≤ g.length := by
  match g with
  | [] => simp [flushGroup]
  | [x] => simp [flushGroup]
  | x :: y :: ys =>
    simp only [flushGroup, List.length_cons, List.length_nil, List.length_singleton]
    omega

theorem dedupGo_sublist (rest : List EmployeeList) :
    ∀ group, (dedupGo group rest).Sublist (group ++ rest) := by
  induction rest with
  | nil =>
    intro group
    simpa [dedupGo] using flushGroup_sublist group
  | cons e rest ih =>
    intro group
    cases hg : group.getLast? with
    | none =>
      have hgnil : group = [] := List.getLast?_eq_none_iff.mp hg
      subst hgnil
      simpa [dedupGo, hg] using ih [e]
    | some glast =>
      simp only [dedupGo, hg]
      by_cases he : elEq e glast = true
      · simp only [he, if_true]
        have := ih (group ++ [e])
        simpa using this
      · simp only [he, if_false]
        have h1 : (flushGroup group ++ dedupGo [e] rest).Sublist (group ++ (e :: rest)) :=
          List.Sublist.append (flushGroup_sublist group) (by simpa using ih [e])
        simpa using h1

theorem dedupGo_ne_nil (rest : List EmployeeList) :
    ∀ {group}, group ≠ [] → dedupGo group rest ≠ [] := by
  induction rest with
  | nil =>
    intro group h
    simpa [dedupGo] using flushGroup_ne_nil h
  | cons e rest ih =>
    intro group h
    have hs : group.getLast?.isSome = true := List.getLast?_isSome.mpr h
    obtain ⟨glast, hg⟩ := Option.isSome_iff_exists.mp hs
    simp only [dedupGo, hg]
    by_cases he : elEq e glast = true
    · simp only [he, if_true]
      exact ih (by simp)
    · simp only [he, if_false]
      intro hcontra
      have := List.append_eq_nil.mp hcontra
      exact flushGroup_ne_nil h this.1

theorem dedupGo_head? (rest : List EmployeeList) :
    ∀ {group}, group ≠ [] → (dedupGo group rest).head? = group.head? := by
  induction rest with
  | nil =>
    intro group h
    simpa [dedupGo] using flushGroup_head? h
  | cons e rest ih =>
    intro group h
    have hs : group.getLast?.isSome = true := List.getLast?_isSome.mpr h
    obtain ⟨glast, hg⟩ := Option.isSome_iff_exists.mp hs
    simp only [dedupGo, hg]
    by_cases he : elEq e glast = true
    · simp only [he, if_true]
      rw [ih (by simp : group ++ [e] ≠ [])]
      obtain ⟨g0, gr, rfl⟩ := List.exists_cons_of_ne_nil h
      simp
    · simp only [he, Bool.false_eq_true, if_false]
      rw [List.head?_append, flushGroup_head? h]
      obtain ⟨g0, gr, rfl⟩ := List.exists_cons_of_ne_nil h
      simp

theorem dedupGo_getLast? (rest : List EmployeeList) :
    ∀ {group}, group ≠ [] → (dedupGo group rest).getLast? = (group ++ rest).getLast? := by
  induction rest with
  | nil =>
    intro group h
    simpa [dedupGo] using flushGroup_getLast? h
  | cons e rest ih =>
    intro group h
    have hs : group.getLast?.isSome = true := List.getLast?_isSome.mpr h
    obtain ⟨glast, hg⟩ := Option.isSome_iff_exists.mp hs
    simp only [dedupGo, hg]
    by_cases he : elEq e glast = true
    · simp only [he, if_true]
      rw [ih (by simp : group ++ [e] ≠ [])]
      simp
    · simp only [he, Bool.false_eq_true, if_false]
      have h2 : (e :: rest).getLast?.isSome = true := List.getLast?_isSome.mpr (by simp)
      obtain ⟨z, hz⟩ := Option.isSome_iff_exists.mp h2
      have h1 : (dedupGo [e] rest).getLast? = (e :: rest).getLast? := by
        simpa using ih (by simp : ([e] : List EmployeeList) ≠ [])
      rw [List.getLast?_append, h1, hz, List.getLast?_append, hz]
      simp

theorem dedupGo_length (rest : List EmployeeList) :
    ∀ group, (dedupGo group rest).length ≤ group.length + rest.length := by
  induction rest with
  | nil =>
    intro group
    simpa [dedupGo] using flushGroup_length group
  | cons e rest ih =>
    intro group
    cases hg : group.getLast? with
    | none =>
      have hgnil : group = [] := List.getLast?_eq_none_iff.mp hg
      subst hgnil
      simp only [dedupGo, hg]
      have := ih [e]
      simp at this ⊢
      omega
    | some glast =>
      simp only [dedupGo, hg]
      by_cases he : elEq e glast = true
      · simp only [he, if_true]
        have := ih (group ++ [e])
        simp at this ⊢
        omega
      · simp only [he, if_false]
        have h1 := flushGroup_length group
        have h2 := ih [e]
        simp at h2 ⊢
        omega

/-- C10: `_deduplicate_consecutive` never fabricates or reorders history: its
output is a sublist of its input (elements occur in the input, in order), the
first and last entries of the input are retained (`head?` and `getLast?` agree,
which also forces a nonempty output on nonempty input), and the output is no
longer than the input. -/
theorem dedup_subsequence_first_last_length (entries : List EmployeeList) :
    (deduplicate_consecutive entries).Sublist entries ∧
    (deduplicate_consecutive entries).head? = entries.head? ∧
    (deduplicate_consecutive entries).getLast? = entries.getLast? ∧
    (deduplicate_consecutive entries).length ≤ entries.length := by
  match entries with
  | [] => simp [deduplicate_consecutive]
  | e :: rest =>
    simp only [deduplicate_consecutive]
    refine ⟨?_, ?_, ?_, ?_⟩
    · simpa using dedupGo_sublist rest [e]
    · simpa using dedupGo_head? rest (by simp : [e] ≠ [])
    · simpa using dedupGo_getLast? rest (by simp : [e] ≠ [])
    · have := dedupGo_length rest [e]
      simp at this ⊢
      omega

/-! ## Properties of the structural differ (claims C9, C3) -/

theorem deepDiff_mem_old_ne_new (o1 o2 : Value) (path : String) (ign : List String) :
    ∀ c ∈ deepDiff o1 o2 path ign, pyEq c.old_value c.new_value = false := by
  induction o1, o2, path, ign using deepDiff.induct with
  | case1 o1 o2 path ign hin =>
    intro c hc
    rw [deepDiff.eq_def] at hc
    simp [hin] at hc
  | case2 o1 o2 path ign hnin heq =>
    intro c hc
    rw [deepDiff.eq_def] at hc
    simp [hnin, heq] at hc
  | case3 path ign hnin kvs1 kvs2 hne ih =>
    intro c hc
    rw [deepDiff.eq_def] at hc
    simp only [if_neg hnin, if_neg hne, List.mem_flatMap] at hc
    obtain ⟨k, _, hc⟩ := hc
    exact ih k c hc
  | case4 path ign hnin xs ys hne ih =>
    intro c hc
    rw [deepDiff.eq_def] at hc
    simp only [if_neg hnin, if_neg hne, List.mem_flatMap] at hc
    obtain ⟨q, _, hc⟩ := hc
    exact ih q c hc
  | case5 o1 o2 path ign hnin hne hnd hnl =>
    intro c hc
    have hleaf : deepDiff o1 o2 path ign = [⟨path, o1, o2⟩] := by
      rw [deepDiff.eq_def]
      rw [if_neg hnin, if_neg hne]
      cases o1 <;> cases o2 <;>
        first
        | (exfalso; exact hnd _ _ rfl rfl)
        | (exfalso; exact hnl _ _ rfl rfl)
        | rfl
    rw [hleaf] at hc
    simp at hc
    subst hc
    exact Bool.eq_false_iff.mpr hne


theorem deepDiff_eq_empty_of_pyEq {o1 o2 : Value} (path : String) (ign : List String)
    (h : pyEq o1 o2 = true) : deepDiff o1 o2 path ign = [] := by
  rw [deepDiff.eq_def]
  simp [h]

/-- C9: every `FieldChange` emitted by `_deep_diff` records an actual
difference — its `old_value` and `new_value` are not deeply equal (Python
`==` is false on them) — and diffing a value against an equal value emits
nothing, at any path and for any ignore-list. -/
theorem diff_emits_only_real_changes (o1 o2 : Value) (path : String) (ign : List String) :
    (∀ c ∈ deepDiff o1 o2 path ign, pyEq c.old_value c.new_value = false) ∧
    (pyEq o1 o2 = true → deepDiff o1 o2 path ign = []) :=
  ⟨deepDiff_mem_old_ne_new o1 o2 path ign, fun h => deepDiff_eq_empty_of_pyEq path ign h⟩

/-- Witness for C9 at concrete inputs: `deepDiff 1 2` emits the change
`⟨"", 1, 2⟩`, whose endpoints are indeed not `pyEq`; and diffing the dict
`{"a": 1}` against itself yields no changes. -/
theorem diff_emits_only_real_changes_witness :
    pyEq (Value.int 1) (Value.int 2) = false ∧
    deepDiff (Value.dict [("a", Value.int 1)]) (Value.dict [("a", Value.int 1)]) "" [] = [] := by
  constructor
  · exact (diff_emits_only_real_changes (Value.int 1) (Value.int 2) "" []).1
      ⟨"", Value.int 1, Value.int 2⟩
      (by simp [deepDiff, pyEq, toNum])
  · exact (diff_emits_only_real_changes (Value.dict [("a", Value.int 1)])
      (Value.dict [("a", Value.int 1)]) "" []).2
      (by simp [pyEq, pyEqList, pyEqOpt, pyEqDictF, pyEqDictB, lookup, List.find?, List.all, toNum])

/-! ## Cache error handling (claim C2) -/

/-- A cache file whose content is valid JSON but whose single entry is an
object without a `"timestamp"` key: `EmployeeList.from_dict` raises
`KeyError` on it, and `load_cache` does not catch that. -/
def malformedCacheContent : Value :=
  .dict [("entries", .list [.dict []])]

/-- Counterexample to C2: on a cache file holding valid JSON with a
malformed entry, `load_cache` raises (`KeyError: timestamp` escapes the
`except (OSError, json.JSONDecodeError)` handler) instead of returning an
empty sequence. -/
theorem load_cache_raises_on_malformed_entry :
    load_cache (.json malformedCacheContent) = .error "KeyError: timestamp" := by
  rfl

/-- C2 (amended): `load_cache` degrades to an empty sequence when the file is
missing, unreadable (`OSError`), or not valid JSON (`JSONDecodeError`); but
content that parses as JSON and is malformed deeper down — here an entry
object with no `"timestamp"` key — makes `load_cache`, `get_latest_cache`
and `save_cache` all raise to their caller. -/
theorem cache_ops_degrade_only_on_io_and_json_errors :
    load_cache .missing = .ok [] ∧
    load_cache .ioError = .ok [] ∧
    load_cache .badJson = .ok [] ∧
    (∃ e, load_cache (.json malformedCacheContent) = .error e) ∧
    (∃ e, get_latest_cache (.json malformedCacheContent) = .error e) ∧
    (∃ e, save_cache ⟨"2024-01-01T00:00:00", .int 0, []⟩
            (.json malformedCacheContent) ⟨5, true⟩ = .error e) := by
  exact ⟨rfl, rfl, rfl, ⟨_, rfl⟩, ⟨_, rfl⟩, ⟨_, rfl⟩⟩

/-! ## The comparator raises on any modified employee (claims C1, C6) -/

/-- Employee with `work.department = "HR"` (previous snapshot of the C1 scenario). -/
def empDeptHR : Employee :=
  { id := "1", email := .str "a@x.com", full_name := .str "A", status := "active",
    department := "HR", site := "",
    raw_data := .dict [("id", .str "1"), ("email", .str "a@x.com"),
                       ("work", .dict [("department", .str "HR")])] }

/-- Same identity with `work.department = "IT"` (current snapshot of the C1 scenario). -/
def empDeptIT : Employee :=
  { id := "1", email := .str "a@x.com", full_name := .str "A", status := "active",
    department := "IT", site := "",
    raw_data := .dict [("id", .str "1"), ("email", .str "a@x.com"),
                       ("work", .dict [("department", .str "IT")])] }

/-- C1: on the scenario given in the spec — same `(id, email)` key, raw
`work.department` changed from `"HR"` to `"IT"`, `work.department` not
ignored — `compare_employee_lists(current, previous)` does not return a
report with one ModifiedEmployee; it raises `TypeError`, because the
`ModifiedEmployee(...)` call omits the required dataclass fields `status`,
`department` and `site`.  (The diff it computed before failing also has the
claimed `old_value`/`new_value` swapped: `_deep_diff` is called with the
current record first, so `old_value` is the current `"IT"`.) -/
theorem compare_raises_on_department_change :
    compare_employee_lists
      ⟨"2024-01-02T00:00:00", .int 1, [empDeptIT]⟩
      ⟨"2024-01-01T00:00:00", .int 1, [empDeptHR]⟩ =
    .error "TypeError: ModifiedEmployee missing 3 required positional arguments: status, department, and site" ∧
    compare_employee_data empDeptIT empDeptHR =
      [⟨"work.department", .str "IT", .str "HR"⟩] := by
  constructor
  · simp [compare_employee_lists, build_employee_index, indexInsert, get_employee_key,
      keyEq, indexHasKey, indexLookup, compare_employee_data, deepDiff, pyEq, pyEqList,
      pyEqOpt, pyEqDictF, pyEqDictB, lookup, unionKeys, dictGet, extendPath, toNum,
      IGNORED_EMPLOYEE_PATHS, empDeptHR, empDeptIT]
  · simp [compare_employee_data, deepDiff, pyEq, pyEqList, pyEqOpt, pyEqDictF, pyEqDictB,
      lookup, unionKeys, dictGet, extendPath, toNum, IGNORED_EMPLOYEE_PATHS,
      empDeptHR, empDeptIT]

/-- Employee (id "7") with `work.site = "A"`. -/
def empSiteA : Employee :=
  { id := "7", email := .str "g@x.com", full_name := .str "G", status := "active",
    department := "", site := "A",
    raw_data := .dict [("id", .str "7"), ("email", .str "g@x.com"),
                       ("work", .dict [("site", .str "A")])] }

/-- Employee (id "7") with `work.site = "B"`. -/
def empSiteB : Employee :=
  { id := "7", email := .str "g@x.com", full_name := .str "G", status := "active",
    department := "", site := "B",
    raw_data := .dict [("id", .str "7"), ("email", .str "g@x.com"),
                       ("work", .dict [("site", .str "B")])] }

/-- C6: `compare_employee_lists` is not total.  On well-formed snapshots
sharing key `("7", "g@x.com")` whose records differ in `work.site`, the key
should be classified as modified-with-nonempty-changes; instead the function
raises `TypeError` while building the `ModifiedEmployee` (the constructor
call omits the required `status`, `department` and `site` fields), so no
classification is produced at all. -/
theorem compare_not_total_on_modified_key :
    compare_employee_lists
      ⟨"2024-01-02T00:00:00", .int 1, [empSiteB]⟩
      ⟨"2024-01-01T00:00:00", .int 1, [empSiteA]⟩ =
    .error "TypeError: ModifiedEmployee missing 3 required positional arguments: status, department, and site" := by
  simp [compare_employee_lists, build_employee_index, indexInsert, get_employee_key,
    keyEq, indexHasKey, indexLookup, compare_employee_data, deepDiff, pyEq, pyEqList,
    pyEqOpt, pyEqDictF, pyEqDictB, lookup, unionKeys, dictGet, extendPath, toNum,
    IGNORED_EMPLOYEE_PATHS, empSiteA, empSiteB]

/-! ## Bounded growth of the cache (claim C5) -/

theorem trimEntries_length {cfg : CacheConfig} (hmax : 1 ≤ cfg.max_entries)
    (xs : List EmployeeList) :
    ((trimEntries cfg xs).length : Int) ≤ cfg.max_entries := by
  unfold trimEntries
  by_cases h : (xs.length : Int) > cfg.max_entries
  · rw [if_pos h]
    unfold pySliceFrom
    have hneg : -cfg.max_entries < 0 := by omega
    rw [if_pos hneg]
    rw [List.length_drop]
    have htn : ((xs.length : Int) + -cfg.max_entries).toNat = xs.length - cfg.max_entries.toNat := by
      omega
    rw [htn]
    omega
  · rw [if_neg h]
    omega

theorem trimEntries_suffix (cfg : CacheConfig) (xs : List EmployeeList) :
    (trimEntries cfg xs).IsSuffix xs := by
  unfold trimEntries
  split
  · unfold pySliceFrom
    split
    · exact List.drop_suffix _ _
    · exact List.drop_suffix _ _
  · exact List.suffix_refl xs

theorem persistedEntries_cacheData (cfg : CacheConfig) (entries : List EmployeeList) :
    persistedEntries (.json (cacheData cfg entries)) =
      some (entries.map EmployeeList.to_dict) := by
  simp [persistedEntries, cacheData, lookup, List.find?]

/-- C5 (amended): provided `max_entries ≥ 1`, every `save_cache` call that
completes without raising persists at most `max_entries` entries, and the
kept entries are a suffix (the most recent ones, oldest dropped first) of
the deduplicated pre-trim sequence.  The claim as stated fails for
`max_entries ≤ 0` (see the counterexample), and a call whose internal load
raises leaves the file unchanged. -/
theorem save_cache_bounded_for_positive_max (cfg : CacheConfig) (f : CacheFile)
    (l : EmployeeList) (f' : CacheFile)
    (hmax : 1 ≤ cfg.max_entries) (hsave : save_cache l f cfg = .ok f') :
    ∃ ex,
      load_cache f = .ok ex ∧
      (∀ pre, pre = (if cfg.deduplicate_consecutive
                     then deduplicate_consecutive (ex ++ [l]) else ex ++ [l]) →
        persistedEntries f' = some ((trimEntries cfg pre).map EmployeeList.to_dict) ∧
        ((trimEntries cfg pre).length : Int) ≤ cfg.max_entries ∧
        (trimEntries cfg pre).IsSuffix pre) := by
  unfold save_cache at hsave
  cases hload : load_cache f with
  | error e =>
    rw [hload] at hsave
    simp only [Bind.bind, Except.bind] at hsave
    exact absurd hsave (by simp)
  | ok ex =>
    rw [hload] at hsave
    simp only [Bind.bind, Except.bind] at hsave
    refine ⟨ex, rfl, ?_⟩
    intro pre hpre
    have hf' : f' = .json (cacheData cfg (trimEntries cfg pre)) := by
      rw [hpre]
      exact (Except.ok.injEq _ _ |>.mp hsave).symm
    subst hf'
    exact ⟨persistedEntries_cacheData cfg _, trimEntries_length hmax pre,
      trimEntries_suffix cfg pre⟩

/-- The empty snapshot used in concrete cache scenarios. -/
def emptySnapshot : EmployeeList := ⟨"2024-01-01T00:00:00", .int 0, []⟩

/-- Witness for C5 (amended) at `max_entries = 2`, saving one snapshot into a
missing cache file. -/
theorem save_cache_bounded_for_positive_max_witness :
    ∃ ex,
      load_cache .missing = .ok ex ∧
      (∀ pre, pre = (if (CacheConfig.mk 2 false).deduplicate_consecutive
                     then deduplicate_consecutive (ex ++ [emptySnapshot])
                     else ex ++ [emptySnapshot]) →
        persistedEntries (.json (cacheData ⟨2, false⟩ [emptySnapshot])) =
          some ((trimEntries ⟨2, false⟩ pre).map EmployeeList.to_dict) ∧
        ((trimEntries ⟨2, false⟩ pre).length : Int) ≤ (2 : Int) ∧
        (trimEntries ⟨2, false⟩ pre).IsSuffix pre) :=
  save_cache_bounded_for_positive_max ⟨2, false⟩ .missing emptySnapshot
    (.json (cacheData ⟨2, false⟩ [emptySnapshot])) (by decide) (by rfl)

/-- Counterexample to C5 as stated: with `max_entries = 0` the Python trim
slice is `all_entries[-0:]`, i.e. the whole list, so one save into an empty
cache persists 1 entry — more than `max_entries`. -/
theorem save_cache_violates_bound_for_zero_max :
    save_cache emptySnapshot .missing ⟨0, false⟩ =
      .ok (.json (cacheData ⟨0, false⟩ [emptySnapshot])) ∧
    persistedEntries (.json (cacheData ⟨0, false⟩ [emptySnapshot])) =
      some [emptySnapshot.to_dict] ∧
    ¬((([emptySnapshot.to_dict] : List Value).length : Int) ≤ (0 : Int)) := by
  refine ⟨rfl, rfl, by decide⟩

/-! ## count == len(employees) at construction (claim C8) -/

theorem from_raw_data_list_count (now : String) (data : List Value) (l : EmployeeList)
    (h : EmployeeList.from_raw_data now data = .ok l) :
    l.count = .int l.employees.length := by
  unfold EmployeeList.from_raw_data at h
  cases hm : data.mapM Employee.from_raw_data with
  | error e =>
    rw [hm] at h
    simp only [Bind.bind, Except.bind] at h
    exact absurd h (by simp)
  | ok emps =>
    rw [hm] at h
    simp only [Bind.bind, Except.bind] at h
    have hl : (⟨now, .int emps.length, emps⟩ : EmployeeList) = l := by
      exact (Except.ok.injEq _ _).mp h
    rw [← hl]

theorem from_dict_count_of_no_count_key (kvs : List (String × Value)) (l : EmployeeList)
    (hnc : lookup kvs "count" = none)
    (h : EmployeeList.from_dict (.dict kvs) = .ok l) :
    l.count = .int l.employees.length := by
  simp only [EmployeeList.from_dict] at h
  cases hts : lookup kvs "timestamp" with
  | none => rw [hts] at h; simp at h
  | some tv =>
    rw [hts] at h
    cases tv with
    | str ts =>
      cases hit : pyIter (dictGet kvs "employees" (.list [])) with
      | error e =>
        rw [hit] at h
        simp only [Bind.bind, Except.bind] at h
        exact absurd h (by simp)
      | ok vals =>
        rw [hit] at h
        simp only [Bind.bind, Except.bind] at h
        cases hm : vals.mapM Employee.from_raw_data with
        | error e =>
          rw [hm] at h
          exact absurd h (by simp)
        | ok emps =>
          rw [hm] at h
          have hl : (⟨ts, dictGet kvs "count" (.int emps.length), emps⟩ : EmployeeList) = l := by
            exact (Except.ok.injEq _ _).mp h
          rw [← hl]
          simp only [dictGet, hnc]
    | null => simp at h
    | bool b => simp at h
    | int n => simp at h
    | list xs => simp at h
    | dict kvs2 => simp at h

/-- C8 (amended): `EmployeeList.from_raw_data` always establishes
`count == len(employees)`; `EmployeeList.from_dict` establishes it whenever
the persisted dict carries no `"count"` key — a present `"count"` is copied
verbatim, without being checked against the number of employee records (see
the counterexample). -/
theorem constructors_establish_count_invariant :
    (∀ (now : String) (data : List Value) (l : EmployeeList),
       EmployeeList.from_raw_data now data = .ok l →
       l.count = .int l.employees.length) ∧
    (∀ (kvs : List (String × Value)) (l : EmployeeList),
       lookup kvs "count" = none →
       EmployeeList.from_dict (.dict kvs) = .ok l →
       l.count = .int l.employees.length) :=
  ⟨from_raw_data_list_count, from_dict_count_of_no_count_key⟩

/-- The `EmployeeList` produced by `from_raw_data` on one record
`{"id": "9", "fullName": "Jo"}`. -/
def c8FetchList : EmployeeList :=
  ⟨"2024-01-01T00:00:00", .int 1,
   [⟨"9", .str "", .str "Jo", "active".toLower, "".trim, "".trim,
     .dict [("id", .str "9"), ("fullName", .str "Jo")]⟩]⟩

/-- The `EmployeeList` produced by `from_dict` on `{"timestamp": "t1"}`. -/
def c8LoadList : EmployeeList := ⟨"t1", .int 0, []⟩

/-- Witness for C8 (amended): both constructors at concrete inputs. -/
theorem constructors_establish_count_invariant_witness :
    c8FetchList.count = .int c8FetchList.employees.length ∧
    c8LoadList.count = .int c8LoadList.employees.length :=
  ⟨constructors_establish_count_invariant.1 "2024-01-01T00:00:00"
     [.dict [("id", .str "9"), ("fullName", .str "Jo")]] c8FetchList rfl,
   constructors_establish_count_invariant.2 [("timestamp", .str "t1")] c8LoadList
     rfl rfl⟩

/-- Counterexample to C8 as stated: `from_dict` trusts a persisted `"count"`
of 99 on a snapshot with 0 employee records, producing an `EmployeeList`
violating `count == len(employees)`. -/
theorem from_dict_copies_bogus_count :
    EmployeeList.from_dict
      (.dict [("timestamp", .str "2024-01-01T00:00:00"), ("count", .int 99),
              ("employees", .list [])]) =
      .ok ⟨"2024-01-01T00:00:00", .int 99, []⟩ ∧
    Value.int 99 ≠ Value.int (([] : List Employee).length) := by
  refine ⟨rfl, by simp⟩

/-! ## `pyEq` is an equivalence on well-formed values -/

theorem lookup_cons (k1 : String) (v1 : Value) (rest : List (String × Value)) (k : String) :
    lookup ((k1, v1) :: rest) k = if k1 = k then some v1 else lookup rest k := by
  by_cases h : k1 = k
  · simp [lookup, List.find?, h]
  · have hb : (k1 == k) = false := by simp [h]
    simp [lookup, List.find?, h, hb]

theorem keysNodup_cons {k1 : String} {v1 : Value} {rest : List (String × Value)}
    (h : keysNodup ((k1, v1) :: rest) = true) :
    (∀ kv ∈ rest, kv.1 ≠ k1) ∧ keysNodup rest = true := by
  simp only [keysNodup, Bool.and_eq_true, List.all_eq_true] at h
  refine ⟨fun kv hm => ?_, h.2⟩
  have := h.1 kv hm
  simpa using this

theorem lookup_of_mem_nodup :
    ∀ {kvs : List (String × Value)}, keysNodup kvs = true →
      ∀ {k : String} {v : Value}, (k, v) ∈ kvs → lookup kvs k = some v := by
  intro kvs
  induction kvs with
  | nil => intro _ k v hm; simp at hm
  | cons kv1 rest ih =>
    obtain ⟨k1, v1⟩ := kv1
    intro hnd k v hm
    obtain ⟨hk1, hrest⟩ := keysNodup_cons hnd
    rw [lookup_cons]
    rcases List.mem_cons.mp hm with heq | hmem
    · obtain ⟨rfl, rfl⟩ := Prod.mk.injEq _ _ _ _ ▸ heq
      simp at heq ⊢
    · have hne : k ≠ k1 := by
        intro hcontra
        exact hk1 (k, v) hmem (by simpa using hcontra.symm ▸ rfl)
      rw [if_neg (fun hc => hne hc.symm)]
      exact ih hrest hmem

theorem wfV_list_mem {xs : List Value} (h : wfV (.list xs) = true) {x : Value}
    (hm : x ∈ xs) : wfV x = true := by
  have hl : wfList xs = true := by
    rw [wfV] at h
    exact h
  induction xs with
  | nil => simp at hm
  | cons y ys ih =>
    rw [wfList, Bool.and_eq_true] at hl
    rcases List.mem_cons.mp hm with rfl | hmem
    · exact hl.1
    · exact ih (by rw [wfV]; exact hl.2) hmem hl.2

theorem wfV_dict_parts {kvs : List (String × Value)} (h : wfV (.dict kvs) = true) :
    keysNodup kvs = true ∧ wfKvs kvs = true := by
  rw [wfV, Bool.and_eq_true] at h
  exact h

theorem wfKvs_mem :
    ∀ {kvs : List (String × Value)}, wfKvs kvs = true →
      ∀ {k : String} {v : Value}, (k, v) ∈ kvs → wfV v = true := by
  intro kvs
  induction kvs with
  | nil => intro _ k v hm; simp at hm
  | cons kv1 rest ih =>
    obtain ⟨k1, v1⟩ := kv1
    intro hwf k v hm
    rw [wfKvs, Bool.and_eq_true] at hwf
    rcases List.mem_cons.mp hm with heq | hmem
    · obtain ⟨rfl, rfl⟩ := Prod.mk.injEq _ _ _ _ ▸ heq
      exact hwf.1
    · exact ih hwf.2 hmem

theorem pyEq_list_eq (xs ys : List Value) :
    pyEq (.list xs) (.list ys) = pyEqList xs ys := by
  rw [pyEq]

theorem pyEq_dict_eq (kvs1 kvs2 : List (String × Value)) :
    pyEq (.dict kvs1) (.dict kvs2) = (pyEqDictF kvs1 kvs2 && pyEqDictB kvs1 kvs2) := by
  rw [pyEq]

theorem pyEqOpt_iff (v : Value) (o : Option Value) :
    pyEqOpt v o = true ↔ ∃ w, o = some w ∧ pyEq v w = true := by
  cases o <;> simp [pyEqOpt]

theorem pyEqDictF_iff (kvs1 kvs2 : List (String × Value)) :
    pyEqDictF kvs1 kvs2 = true ↔
      ∀ kv ∈ kvs1, ∃ w, lookup kvs2 kv.1 = some w ∧ pyEq kv.2 w = true := by
  induction kvs1 with
  | nil => simp [pyEqDictF]
  | cons kv1 rest ih =>
    obtain ⟨k1, v1⟩ := kv1
    rw [pyEqDictF, Bool.and_eq_true, ih]
    constructor
    · rintro ⟨h1, h2⟩ kv hm
      rcases List.mem_cons.mp hm with rfl | hmem
      · exact (pyEqOpt_iff _ _).mp h1
      · exact h2 kv hmem
    · intro h
      refine ⟨(pyEqOpt_iff _ _).mpr (h (k1, v1) (by simp)), fun kv hm => h kv (by simp [hm])⟩

theorem pyEqDictB_iff (kvs1 kvs2 : List (String × Value)) :
    pyEqDictB kvs1 kvs2 = true ↔ ∀ kv ∈ kvs2, (lookup kvs1 kv.1).isSome = true := by
  simp [pyEqDictB, List.all_eq_true]

theorem pyEqList_refl_of {xs : List Value} (ih : ∀ x ∈ xs, pyEq x x = true) :
    pyEqList xs xs = true := by
  induction xs with
  | nil => rw [pyEqList]
  | cons x rest ihr =>
    rw [pyEqList, Bool.and_eq_true]
    exact ⟨ih x (by simp), ihr (fun y hy => ih y (by simp [hy]))⟩

theorem pyEqList_symm_of :
    ∀ {xs ys : List Value},
      (∀ x ∈ xs, ∀ y ∈ ys, pyEq x y = true → pyEq y x = true) →
      pyEqList xs ys = true → pyEqList ys xs = true := by
  intro xs
  induction xs with
  | nil =>
    intro ys _ h
    cases ys with
    | nil => rw [pyEqList]
    | cons y ys => simp [pyEqList] at h
  | cons x rest ih =>
    intro ys hsym h
    cases ys with
    | nil => simp [pyEqList] at h
    | cons y ys =>
      rw [pyEqList, Bool.and_eq_true] at h
      rw [pyEqList, Bool.and_eq_true]
      exact ⟨hsym x (by simp) y (by simp) h.1,
        ih (fun a ha b hb => hsym a (by simp [ha]) b (by simp [hb])) h.2⟩

theorem pyEqList_trans_of :
    ∀ {xs ys zs : List Value},
      (∀ x ∈ xs, ∀ y ∈ ys, ∀ z ∈ zs,
        pyEq x y = true → pyEq y z = true → pyEq x z = true) →
      pyEqList xs ys = true → pyEqList ys zs = true → pyEqList xs zs = true := by
  intro xs
  induction xs with
  | nil =>
    intro ys zs _ h1 h2
    cases ys with
    | nil => exact h2
    | cons y ys => simp [pyEqList] at h1
  | cons x rest ih =>
    intro ys zs htr h1 h2
    cases ys with
    | nil => simp [pyEqList] at h1
    | cons y ys =>
      cases zs with
      | nil => simp [pyEqList] at h2
      | cons z zs =>
        rw [pyEqList, Bool.and_eq_true] at h1 h2
        rw [pyEqList, Bool.and_eq_true]
        exact ⟨htr x (by simp) y (by simp) z (by simp) h1.1 h2.1,
          ih (fun a ha b hb c hc hab hbc =>
            htr a (by simp [ha]) b (by simp [hb]) c (by simp [hc]) hab hbc) h1.2 h2.2⟩

theorem pyEqDict_symm_of {kvs1 kvs2 : List (String × Value)}
    (hnd2 : keysNodup kvs2 = true)
    (ih : ∀ v1, (∃ k, (k, v1) ∈ kvs1) → ∀ v2, (∃ k, (k, v2) ∈ kvs2) →
      pyEq v1 v2 = true → pyEq v2 v1 = true)
    (hF : pyEqDictF kvs1 kvs2 = true) (hB : pyEqDictB kvs1 kvs2 = true) :
    pyEqDictF kvs2 kvs1 = true ∧ pyEqDictB kvs2 kvs1 = true := by
  constructor
  · rw [pyEqDictF_iff]
    intro kv hm
    have hsome := (pyEqDictB_iff _ _).mp hB kv hm
    obtain ⟨u, hu⟩ := Option.isSome_iff_exists.mp hsome
    have humem : (kv.1, u) ∈ kvs1 := lookup_mem hu
    obtain ⟨w, hw, hpw⟩ := (pyEqDictF_iff _ _).mp hF (kv.1, u) humem
    have hkv2 : lookup kvs2 kv.1 = some kv.2 := lookup_of_mem_nodup hnd2 (by
      obtain ⟨ka, va⟩ := kv
      exact hm)
    rw [hkv2] at hw
    have hwkv : w = kv.2 := by
      injection hw with h1
      exact h1.symm
    subst hwkv
    exact ⟨u, hu, ih u ⟨kv.1, humem⟩ kv.2 ⟨kv.1, by obtain ⟨ka, va⟩ := kv; exact hm⟩ hpw⟩
  · rw [pyEqDictB_iff]
    intro kv hm
    obtain ⟨w, hw, _⟩ := (pyEqDictF_iff _ _).mp hF kv hm
    simp [hw]

theorem pyEqDict_trans_of {kvs1 kvs2 kvs3 : List (String × Value)}
    (ih : ∀ v1, (∃ k, (k, v1) ∈ kvs1) → ∀ v2, (∃ k, (k, v2) ∈ kvs2) →
      ∀ v3, (∃ k, (k, v3) ∈ kvs3) →
      pyEq v1 v2 = true → pyEq v2 v3 = true → pyEq v1 v3 = true)
    (hF1 : pyEqDictF kvs1 kvs2 = true) (hB1 : pyEqDictB kvs1 kvs2 = true)
    (hF2 : pyEqDictF kvs2 kvs3 = true) (hB2 : pyEqDictB kvs2 kvs3 = true) :
    pyEqDictF kvs1 kvs3 = true ∧ pyEqDictB kvs1 kvs3 = true := by
  constructor
  · rw [pyEqDictF_iff]
    intro kv hm
    obtain ⟨w, hw, hpw⟩ := (pyEqDictF_iff _ _).mp hF1 kv hm
    have hwmem : (kv.1, w) ∈ kvs2 := lookup_mem hw
    obtain ⟨u, hu, hpu⟩ := (pyEqDictF_iff _ _).mp hF2 (kv.1, w) hwmem
    refine ⟨u, hu, ?_⟩
    exact ih kv.2 ⟨kv.1, by obtain ⟨ka, va⟩ := kv; exact hm⟩ w ⟨kv.1, hwmem⟩
      u ⟨kv.1, lookup_mem hu⟩ hpw hpu
  · rw [pyEqDictB_iff]
    intro kv hm
    have hsome := (pyEqDictB_iff _ _).mp hB2 kv hm
    obtain ⟨u, hu⟩ := Option.isSome_iff_exists.mp hsome
    exact (pyEqDictB_iff _ _).mp hB1 (kv.1, u) (lookup_mem hu)

theorem pyEqDictF_refl_of {kvs : List (String × Value)} (hnd : keysNodup kvs = true)
    (ih : ∀ v, (∃ k, (k, v) ∈ kvs) → pyEq v v = true) :
    pyEqDictF kvs kvs = true ∧ pyEqDictB kvs kvs = true := by
  constructor
  · rw [pyEqDictF_iff]
    intro kv hm
    have hl : lookup kvs kv.1 = some kv.2 := lookup_of_mem_nodup hnd (by
      obtain ⟨ka, va⟩ := kv; exact hm)
    exact ⟨kv.2, hl, ih kv.2 ⟨kv.1, by obtain ⟨ka, va⟩ := kv; exact hm⟩⟩
  · rw [pyEqDictB_iff]
    intro kv hm
    have hl : lookup kvs kv.1 = some kv.2 := lookup_of_mem_nodup hnd (by
      obtain ⟨ka, va⟩ := kv; exact hm)
    simp [hl]

theorem sizeOf_value_pos (v : Value) : 0 < sizeOf v := by
  cases v <;> simp_arith

theorem sizeOf_mem_list {x : Value} {xs : List Value} (h : x ∈ xs) :
    sizeOf x < sizeOf (Value.list xs) := by
  have := List.sizeOf_lt_of_mem h
  simp only [Value.list.sizeOf_spec]
  omega

theorem sizeOf_mem_dict {k : String} {v : Value} {kvs : List (String × Value)}
    (h : (k, v) ∈ kvs) : sizeOf v < sizeOf (Value.dict kvs) := by
  have h1 := List.sizeOf_lt_of_mem h
  have h2 : sizeOf v < sizeOf (k, v) := by
    simp only [Prod.mk.sizeOf_spec]; omega
  simp only [Value.dict.sizeOf_spec]
  omega

theorem pyEq_eq_toNum {a b : Value} {x y : Int} (ha : toNum a = some x)
    (hb : toNum b = some y) : pyEq a b = (x == y) := by
  cases a <;> simp [toNum] at ha
  all_goals cases b <;> simp [toNum] at hb
  all_goals subst ha
  all_goals subst hb
  all_goals simp [pyEq, toNum]

theorem toNum_some_of_pyEq_num {b c : Value} {y : Int} (hb : toNum b = some y)
    (h : pyEq b c = true) : ∃ z, toNum c = some z ∧ y = z := by
  cases c with
  | null => cases b <;> simp [pyEq, toNum] at h hb
  | str s => cases b <;> simp [pyEq, toNum] at h hb
  | list xs => cases b <;> simp [pyEq, toNum] at h hb
  | dict kvs => cases b <;> simp [pyEq, toNum] at h hb
  | bool b2 =>
    refine ⟨if b2 then 1 else 0, by simp [toNum], ?_⟩
    have hc : toNum (Value.bool b2) = some (if b2 then (1:Int) else 0) := by simp [toNum]
    rw [pyEq_eq_toNum hb hc] at h
    simpa using h
  | int n2 =>
    refine ⟨n2, by simp [toNum], ?_⟩
    have hc : toNum (Value.int n2) = some n2 := by simp [toNum]
    rw [pyEq_eq_toNum hb hc] at h
    simpa using h

theorem pyEq_refl_size :
    ∀ (n : Nat) (v : Value), sizeOf v ≤ n → wfV v = true → pyEq v v = true := by
  intro n
  induction n with
  | zero =>
    intro v hsz _
    have := sizeOf_value_pos v
    omega
  | succ n ih =>
    intro v hsz hwf
    cases v with
    | null => rw [pyEq]
    | bool b => simp [pyEq, toNum]
    | int k => simp [pyEq, toNum]
    | str s => simp [pyEq]
    | list xs =>
      rw [pyEq_list_eq]
      apply pyEqList_refl_of
      intro x hx
      have hs := sizeOf_mem_list hx
      exact ih x (by omega) (wfV_list_mem hwf hx)
    | dict kvs =>
      rw [pyEq_dict_eq, Bool.and_eq_true]
      obtain ⟨hnd, hkv⟩ := wfV_dict_parts hwf
      apply pyEqDictF_refl_of hnd
      rintro v ⟨k, hkm⟩
      have hs := sizeOf_mem_dict hkm
      exact ih v (by omega) (wfKvs_mem hkv hkm)

theorem pyEq_refl {v : Value} (hwf : wfV v = true) : pyEq v v = true :=
  pyEq_refl_size (sizeOf v) v le_rfl hwf

theorem pyEq_symm_size :
    ∀ (n : Nat) (a b : Value), sizeOf a + sizeOf b ≤ n →
      wfV a = true → wfV b = true → pyEq a b = true → pyEq b a = true := by
  intro n
  induction n with
  | zero =>
    intro a b hsz _ _ _
    have := sizeOf_value_pos a
    have := sizeOf_value_pos b
    omega
  | succ n ih =>
    intro a b hsz hwa hwb h
    cases a with
    | null =>
      cases b with
      | null => exact h
      | bool b2 => simp [pyEq, toNum] at h
      | int n2 => simp [pyEq, toNum] at h
      | str s2 => simp [pyEq, toNum] at h
      | list ys => simp [pyEq, toNum] at h
      | dict kvs2 => simp [pyEq, toNum] at h
    | bool b1 =>
      cases b with
      | null => simp [pyEq, toNum] at h
      | bool b2 =>
        simp [pyEq, toNum] at h ⊢
        omega
      | int n2 =>
        simp [pyEq, toNum] at h ⊢
        omega
      | str s2 => simp [pyEq, toNum] at h
      | list ys => simp [pyEq, toNum] at h
      | dict kvs2 => simp [pyEq, toNum] at h
    | int n1 =>
      cases b with
      | null => simp [pyEq, toNum] at h
      | bool b2 =>
        simp [pyEq, toNum] at h ⊢
        omega
      | int n2 =>
        simp [pyEq, toNum] at h ⊢
        omega
      | str s2 => simp [pyEq, toNum] at h
      | list ys => simp [pyEq, toNum] at h
      | dict kvs2 => simp [pyEq, toNum] at h
    | str s1 =>
      cases b with
      | null => simp [pyEq, toNum] at h
      | bool b2 => simp [pyEq, toNum] at h
      | int n2 => simp [pyEq, toNum] at h
      | str s2 =>
        simp [pyEq] at h ⊢
        exact h.symm
      | list ys => simp [pyEq, toNum] at h
      | dict kvs2 => simp [pyEq, toNum] at h
    | list xs =>
      cases b with
      | null => simp [pyEq, toNum] at h
      | bool b2 => simp [pyEq, toNum] at h
      | int n2 => simp [pyEq, toNum] at h
      | str s2 => simp [pyEq, toNum] at h
      | dict kvs2 => simp [pyEq, toNum] at h
      | list ys =>
        rw [pyEq_list_eq] at h
        rw [pyEq_list_eq]
        refine pyEqList_symm_of ?_ h
        intro x hx y hy hxy
        have hsx := sizeOf_mem_list hx
        have hsy := sizeOf_mem_list hy
        exact ih x y (by omega) (wfV_list_mem hwa hx) (wfV_list_mem hwb hy) hxy
    | dict kvs1 =>
      cases b with
      | null => simp [pyEq, toNum] at h
      | bool b2 => simp [pyEq, toNum] at h
      | int n2 => simp [pyEq, toNum] at h
      | str s2 => simp [pyEq, toNum] at h
      | list ys => simp [pyEq, toNum] at h
      | dict kvs2 =>
        rw [pyEq_dict_eq, Bool.and_eq_true] at h
        rw [pyEq_dict_eq, Bool.and_eq_true]
        obtain ⟨hnd1, hwk1⟩ := wfV_dict_parts hwa
        obtain ⟨hnd2, hwk2⟩ := wfV_dict_parts hwb
        refine pyEqDict_symm_of hnd2 ?_ h.1 h.2
        rintro v1 ⟨k1, hm1⟩ v2 ⟨k2, hm2⟩ hv
        have hs1 := sizeOf_mem_dict hm1
        have hs2 := sizeOf_mem_dict hm2
        exact ih v1 v2 (by omega) (wfKvs_mem hwk1 hm1) (wfKvs_mem hwk2 hm2) hv

theorem pyEq_symm {a b : Value} (hwa : wfV a = true) (hwb : wfV b = true)
    (h : pyEq a b = true) : pyEq b a = true :=
  pyEq_symm_size (sizeOf a + sizeOf b) a b le_rfl hwa hwb h

theorem pyEq_trans_size :
    ∀ (n : Nat) (a b c : Value), sizeOf a + sizeOf b + sizeOf c ≤ n →
      pyEq a b = true → pyEq b c = true → pyEq a c = true := by
  intro n
  induction n with
  | zero =>
    intro a b c hsz _ _
    have := sizeOf_value_pos a
    have := sizeOf_value_pos b
    have := sizeOf_value_pos c
    omega
  | succ n ih =>
    intro a b c hsz h1 h2
    cases a with
    | null =>
      cases b with
      | null => exact h2
      | bool b2 => simp [pyEq, toNum] at h1
      | int n2 => simp [pyEq, toNum] at h1
      | str s2 => simp [pyEq, toNum] at h1
      | list ys => simp [pyEq, toNum] at h1
      | dict kvs2 => simp [pyEq, toNum] at h1
    | str s1 =>
      cases b with
      | null => simp [pyEq, toNum] at h1
      | bool b2 => simp [pyEq, toNum] at h1
      | int n2 => simp [pyEq, toNum] at h1
      | str s2 =>
        simp [pyEq] at h1
        subst h1
        exact h2
      | list ys => simp [pyEq, toNum] at h1
      | dict kvs2 => simp [pyEq, toNum] at h1
    | bool b1 =>
      have ha : toNum (Value.bool b1) = some (if b1 then (1:Int) else 0) := by
        simp [toNum]
      cases b with
      | null => simp [pyEq, toNum] at h1
      | str s2 => simp [pyEq, toNum] at h1
      | list ys => simp [pyEq, toNum] at h1
      | dict kvs2 => simp [pyEq, toNum] at h1
      | bool b2 =>
        have hb : toNum (Value.bool b2) = some (if b2 then (1:Int) else 0) := by
          simp [toNum]
        obtain ⟨z, hz, hyz⟩ := toNum_some_of_pyEq_num hb h2
        rw [pyEq_eq_toNum ha hb] at h1
        rw [pyEq_eq_toNum ha hz]
        rw [pyEq_eq_toNum hb hz] at h2
        simp at h1 ⊢
        omega
      | int n2 =>
        have hb : toNum (Value.int n2) = some n2 := by simp [toNum]
        obtain ⟨z, hz, hyz⟩ := toNum_some_of_pyEq_num hb h2
        rw [pyEq_eq_toNum ha hb] at h1
        rw [pyEq_eq_toNum ha hz]
        simp at h1 ⊢
        omega
    | int n1 =>
      have ha : toNum (Value.int n1) = some n1 := by simp [toNum]
      cases b with
      | null => simp [pyEq, toNum] at h1
      | str s2 => simp [pyEq, toNum] at h1
      | list ys => simp [pyEq, toNum] at h1
      | dict kvs2 => simp [pyEq, toNum] at h1
      | bool b2 =>
        have hb : toNum (Value.bool b2) = some (if b2 then (1:Int) else 0) := by
          simp [toNum]
        obtain ⟨z, hz, hyz⟩ := toNum_some_of_pyEq_num hb h2
        rw [pyEq_eq_toNum ha hb] at h1
        rw [pyEq_eq_toNum ha hz]
        simp at h1 ⊢
        omega
      | int n2 =>
        have hb : toNum (Value.int n2) = some n2 := by simp [toNum]
        obtain ⟨z, hz, hyz⟩ := toNum_some_of_pyEq_num hb h2
        rw [pyEq_eq_toNum ha hb] at h1
        rw [pyEq_eq_toNum ha hz]
        simp at h1 ⊢
        omega
    | list xs =>
      cases b with
      | null => simp [pyEq, toNum] at h1
      | bool b2 => simp [pyEq, toNum] at h1
      | int n2 => simp [pyEq, toNum] at h1
      | str s2 => simp [pyEq, toNum] at h1
      | dict kvs2 => simp [pyEq, toNum] at h1
      | list ys =>
        cases c with
        | null => simp [pyEq, toNum] at h2
        | bool b3 => simp [pyEq, toNum] at h2
        | int n3 => simp [pyEq, toNum] at h2
        | str s3 => simp [pyEq, toNum] at h2
        | dict kvs3 => simp [pyEq, toNum] at h2
        | list zs =>
          rw [pyEq_list_eq] at h1 h2
          rw [pyEq_list_eq]
          refine pyEqList_trans_of ?_ h1 h2
          intro x hx y hy z hz hxy hyz
          have hsx := sizeOf_mem_list hx
          have hsy := sizeOf_mem_list hy
          have hsz := sizeOf_mem_list hz
          exact ih x y z (by omega) hxy hyz
    | dict kvs1 =>
      cases b with
      | null => simp [pyEq, toNum] at h1
      | bool b2 => simp [pyEq, toNum] at h1
      | int n2 => simp [pyEq, toNum] at h1
      | str s2 => simp [pyEq, toNum] at h1
      | list ys => simp [pyEq, toNum] at h1
      | dict kvs2 =>
        cases c with
        | null => simp [pyEq, toNum] at h2
        | bool b3 => simp [pyEq, toNum] at h2
        | int n3 => simp [pyEq, toNum] at h2
        | str s3 => simp [pyEq, toNum] at h2
        | list zs => simp [pyEq, toNum] at h2
        | dict kvs3 =>
          rw [pyEq_dict_eq, Bool.and_eq_true] at h1 h2
          rw [pyEq_dict_eq, Bool.and_eq_true]
          refine pyEqDict_trans_of ?_ h1.1 h1.2 h2.1 h2.2
          rintro v1 ⟨k1, hm1⟩ v2 ⟨k2, hm2⟩ v3 ⟨k3, hm3⟩ hv12 hv23
          have hs1 := sizeOf_mem_dict hm1
          have hs2 := sizeOf_mem_dict hm2
          have hs3 := sizeOf_mem_dict hm3
          exact ih v1 v2 v3 (by omega) hv12 hv23

theorem pyEq_trans {a b c : Value} (h1 : pyEq a b = true) (h2 : pyEq b c = true) :
    pyEq a c = true :=
  pyEq_trans_size (sizeOf a + sizeOf b + sizeOf c) a b c le_rfl h1 h2

/-! ## Persist/load round-trip (claim C7) -/

/-- The sequence of raw records of a snapshot (what `to_dict` persists). -/
def elRaws (l : EmployeeList) : List Value :=
  l.employees.map (fun e => e.raw_data)

/-- Embeds `Except.ok`-ness as a boolean. -/
def isOkB : Except String Employee → Bool
  | .ok _ => true
  | .error _ => false

/-- Every raw record of the snapshot is accepted by `Employee.from_raw_data`
(raises nowhere).  All snapshots built by the constructors of the system satisfy
this. -/
def parseableEL (l : EmployeeList) : Bool :=
  (elRaws l).all (fun r => isOkB (Employee.from_raw_data r))

/-- Every raw record of the snapshot is well-formed (`wfV`). -/
def wfELB (l : EmployeeList) : Bool :=
  (elRaws l).all wfV

theorem empListEqB_eq_pyEqList (xs ys : List Employee) :
    empListEqB xs ys =
      pyEqList (xs.map (fun e => e.raw_data)) (ys.map (fun e => e.raw_data)) := by
  induction xs generalizing ys with
  | nil => cases ys <;> simp [empListEqB, pyEqList]
  | cons x rest ih =>
    cases ys with
    | nil => simp [empListEqB, pyEqList]
    | cons y ys => simp [empListEqB, pyEqList, empEq, ih]

theorem elEq_eq_pyEqList (l1 l2 : EmployeeList) :
    elEq l1 l2 = pyEqList (elRaws l1) (elRaws l2) := by
  rw [elEq, empListEqB_eq_pyEqList]
  rfl

theorem from_raw_data_raw {raw : Value} {e : Employee}
    (h : Employee.from_raw_data raw = .ok e) : e.raw_data = raw := by
  cases raw with
  | dict kvs =>
    simp only [Employee.from_raw_data] at h
    cases hw : dictGet kvs "work" (.dict []) <;> rw [hw] at h
    · simp at h
    · simp at h
    · simp at h
    · simp at h
    · simp at h
    · have h2 := (Except.ok.injEq _ _).mp h
      subst h2
      rfl
  | null => simp [Employee.from_raw_data] at h
  | bool b => simp [Employee.from_raw_data] at h
  | int n => simp [Employee.from_raw_data] at h
  | str s => simp [Employee.from_raw_data] at h
  | list xs => simp [Employee.from_raw_data] at h

theorem mapM_from_raw_of_parseable :
    ∀ (raws : List Value),
      (∀ r ∈ raws, isOkB (Employee.from_raw_data r) = true) →
      ∃ es', raws.mapM Employee.from_raw_data = .ok es' ∧
        es'.map (fun e => e.raw_data) = raws := by
  intro raws
  induction raws with
  | nil => exact fun _ => ⟨[], rfl, rfl⟩
  | cons r rest ih =>
    intro h
    have hr := h r (by simp)
    cases hfr : Employee.from_raw_data r with
    | error e => rw [hfr] at hr; simp [isOkB] at hr
    | ok e =>
      obtain ⟨es', hes', hraws⟩ := ih (fun x hx => h x (by simp [hx]))
      refine ⟨e :: es', ?_, ?_⟩
      · rw [List.mapM_cons, hfr, hes']
        rfl
      · simp [hraws, from_raw_data_raw hfr]

theorem roundtrip_core (l : EmployeeList) (hp : parseableEL l = true) :
    ∃ l', EmployeeList.from_dict (EmployeeList.to_dict l) = .ok l' ∧
      l'.timestamp = l.timestamp ∧ l'.count = l.count ∧
      elRaws l' = elRaws l ∧
      (wfELB l = true → elEq l' l = true) := by
  simp only [parseableEL, List.all_eq_true] at hp
  obtain ⟨es', hes', hraws⟩ := mapM_from_raw_of_parseable (elRaws l)
    (fun r hr => by simpa using hp r hr)
  refine ⟨⟨l.timestamp, l.count, es'⟩, ?_, rfl, rfl, ?_, ?_⟩
  · simp only [elRaws, List.mapM] at hes'
    simp [EmployeeList.to_dict, EmployeeList.from_dict, lookup, List.find?,
      dictGet, pyIter, Bind.bind, Except.bind, List.mapM, hes']
  · exact hraws
  · intro hwf
    rw [elEq_eq_pyEqList]
    show pyEqList (elRaws ⟨l.timestamp, l.count, es'⟩) (elRaws l) = true
    have : elRaws ⟨l.timestamp, l.count, es'⟩ = elRaws l := hraws
    rw [this]
    apply pyEqList_refl_of
    intro x hx
    simp only [wfELB, List.all_eq_true] at hwf
    exact pyEq_refl (hwf x hx)

/-- C7 (amended): persisting a snapshot and loading it back restores the
timestamp, the count and the raw record of every employee exactly — provided
every raw record is accepted by `Employee.from_raw_data` (true of every
snapshot the system constructs); content equality (`EmployeeList.__eq__`)
of the reloaded snapshot additionally holds for well-formed records.  As
stated — for *every* `EmployeeList` — the round-trip fails: a record whose
`"work"` value is not a mapping makes the reload raise (see the
counterexample). -/
theorem to_dict_from_dict_roundtrip (l : EmployeeList) (hp : parseableEL l = true) :
    ∃ l', EmployeeList.from_dict (EmployeeList.to_dict l) = .ok l' ∧
      l'.timestamp = l.timestamp ∧ l'.count = l.count ∧
      elRaws l' = elRaws l ∧
      (wfELB l = true → elEq l' l = true) :=
  roundtrip_core l hp

/-- A parseable, well-formed one-employee snapshot. -/
def rtList : EmployeeList :=
  ⟨"2024-03-01T12:00:00", .int 1,
   [⟨"5", .str "", .str "E", "active".toLower, "".trim, "".trim,
     .dict [("id", .str "5"), ("fullName", .str "E")]⟩]⟩

/-- Witness for C7 (amended) on a concrete parseable snapshot. -/
theorem to_dict_from_dict_roundtrip_witness :
    parseableEL rtList = true ∧
    (∃ l', EmployeeList.from_dict (EmployeeList.to_dict rtList) = .ok l' ∧
      l'.timestamp = rtList.timestamp ∧ l'.count = rtList.count ∧
      elRaws l' = elRaws rtList ∧ (wfELB rtList = true → elEq l' rtList = true)) :=
  ⟨rfl, to_dict_from_dict_roundtrip rtList rfl⟩

/-- A snapshot whose employee has `"work": null` in its raw record.
`to_dict` serializes it fine, but reloading raises: `from_raw_data` calls
`.get` on the non-dict `"work"` value (`AttributeError`). -/
def unparseableList : EmployeeList :=
  ⟨"2024-01-01T00:00:00", .int 1,
   [⟨"1", .str "", .str "X", "active", "", "", .dict [("work", .null)]⟩]⟩

/-- Counterexample to C7 as stated: `from_dict (to_dict l)` is not
content-equal to `l` for every `EmployeeList l` — here it raises instead of
returning a snapshot at all. -/
theorem roundtrip_fails_on_unparseable_raw :
    EmployeeList.from_dict (EmployeeList.to_dict unparseableList) =
      .error "AttributeError: object has no attribute get" := by
  rfl

/-! ## Consecutive equal saves collapse to two entries (claim C4) -/

theorem wfELB_mem {l : EmployeeList} (h : wfELB l = true) {r : Value}
    (hm : r ∈ elRaws l) : wfV r = true := by
  rw [wfELB, List.all_eq_true] at h
  exact h r hm

theorem elEq_symm {a b : EmployeeList} (hwa : wfELB a = true) (hwb : wfELB b = true)
    (h : elEq a b = true) : elEq b a = true := by
  rw [elEq_eq_pyEqList] at h ⊢
  refine pyEqList_symm_of ?_ h
  intro x hx y hy hxy
  exact pyEq_symm (wfELB_mem hwa hx) (wfELB_mem hwb hy) hxy

theorem elEq_trans {a b c : EmployeeList} (h1 : elEq a b = true) (h2 : elEq b c = true) :
    elEq a c = true := by
  rw [elEq_eq_pyEqList] at h1 h2 ⊢
  refine pyEqList_trans_of ?_ h1 h2
  intro x _ y _ z _ hxy hyz
  exact pyEq_trans hxy hyz

theorem elEq_congr_left {a a' : EmployeeList} (h : elRaws a = elRaws a')
    (b : EmployeeList) : elEq a b = elEq a' b := by
  rw [elEq_eq_pyEqList, elEq_eq_pyEqList, h]

theorem elEq_congr_right {b b' : EmployeeList} (h : elRaws b = elRaws b')
    (a : EmployeeList) : elEq a b = elEq a b' := by
  rw [elEq_eq_pyEqList, elEq_eq_pyEqList, h]

theorem parseableEL_congr {a a' : EmployeeList} (h : elRaws a = elRaws a') :
    parseableEL a = parseableEL a' := by
  rw [parseableEL, parseableEL, h]

theorem wfELB_congr {a a' : EmployeeList} (h : elRaws a = elRaws a') :
    wfELB a = wfELB a' := by
  rw [wfELB, wfELB, h]

theorem dedup_two {a b : EmployeeList} (h : elEq b a = true) :
    deduplicate_consecutive [a, b] = [a, b] := by
  simp [deduplicate_consecutive, dedupGo, flushGroup, h]

theorem dedup_three {a b c : EmployeeList} (h1 : elEq b a = true) (h2 : elEq c b = true) :
    deduplicate_consecutive [a, b, c] = [a, c] := by
  simp [deduplicate_consecutive, dedupGo, flushGroup, h1, h2]

/-- The cache configuration of the C4 scenario: `max_entries = 5`,
`deduplicate_consecutive = True`. -/
def cfg5 : CacheConfig := ⟨5, true⟩

/-- Repeated `save_cache` calls with `cfg5`, propagating any raise. -/
def foldSaves : CacheFile → List EmployeeList → Except String CacheFile
  | f, [] => .ok f
  | f, x :: xs =>
    match save_cache x f cfg5 with
    | .ok f' => foldSaves f' xs
    | .error e => .error e

theorem load_cacheData_one (cfg : CacheConfig) (a : EmployeeList)
    (hpa : parseableEL a = true) :
    ∃ a', load_cache (.json (cacheData cfg [a])) = .ok [a'] ∧
      a'.timestamp = a.timestamp ∧ elRaws a' = elRaws a := by
  obtain ⟨a', ha', hts, hc, hraws, _⟩ := roundtrip_core a hpa
  refine ⟨a', ?_, hts, hraws⟩
  simp [load_cache, cacheData, dictGet, lookup, List.find?, pyIter,
    Bind.bind, Except.bind, List.mapM, List.mapM.loop, Pure.pure, Except.pure, ha']

theorem load_cacheData_two (cfg : CacheConfig) (a b : EmployeeList)
    (hpa : parseableEL a = true) (hpb : parseableEL b = true) :
    ∃ a' b', load_cache (.json (cacheData cfg [a, b])) = .ok [a', b'] ∧
      a'.timestamp = a.timestamp ∧ elRaws a' = elRaws a ∧
      b'.timestamp = b.timestamp ∧ elRaws b' = elRaws b := by
  obtain ⟨a', ha', hats, hac, haraws, _⟩ := roundtrip_core a hpa
  obtain ⟨b', hb', hbts, hbc, hbraws, _⟩ := roundtrip_core b hpb
  refine ⟨a', b', ?_, hats, haraws, hbts, hbraws⟩
  simp [load_cache, cacheData, dictGet, lookup, List.find?, pyIter,
    Bind.bind, Except.bind, List.mapM, List.mapM.loop, Pure.pure, Except.pure, ha', hb']

theorem save_missing (l : EmployeeList) :
    save_cache l .missing cfg5 = .ok (.json (cacheData cfg5 [l])) := rfl

/-- Invariant after at least two consecutive content-equal saves: the file
holds exactly two entries — a first entry carrying the timestamp and raw content of the first snapshot, and the snapshot saved last. -/
def c4Inv (f : CacheFile) (s0 prev : EmployeeList) : Prop :=
  ∃ a, f = .json (cacheData cfg5 [a, prev]) ∧ parseableEL a = true ∧ wfELB a = true ∧
    a.timestamp = s0.timestamp ∧ elRaws a = elRaws s0 ∧ elEq a prev = true

theorem c4_second (s0 s1 : EmployeeList)
    (hp0 : parseableEL s0 = true) (hw0 : wfELB s0 = true)
    (hp1 : parseableEL s1 = true) (hw1 : wfELB s1 = true)
    (h01 : elEq s0 s1 = true) :
    ∃ f', save_cache s1 (.json (cacheData cfg5 [s0])) cfg5 = .ok f' ∧ c4Inv f' s0 s1 := by
  obtain ⟨a', hload, hts, hraws⟩ := load_cacheData_one cfg5 s0 hp0
  have he1 : elEq s1 a' = true := by
    rw [elEq_congr_right hraws s1]
    exact elEq_symm hw0 hw1 h01
  have hd : deduplicate_consecutive [a', s1] = [a', s1] := dedup_two he1
  refine ⟨.json (cacheData cfg5 [a', s1]), ?_, ?_⟩
  · unfold save_cache
    rw [hload]
    simp [Bind.bind, Except.bind, cfg5, hd, trimEntries]
  · refine ⟨a', rfl, ?_, ?_, hts, hraws, ?_⟩
    · rw [parseableEL_congr hraws]; exact hp0
    · rw [wfELB_congr hraws]; exact hw0
    · rw [elEq_congr_left hraws s1]; exact h01

theorem c4_step (f : CacheFile) (s0 prev nxt : EmployeeList)
    (hInv : c4Inv f s0 prev)
    (hpp : parseableEL prev = true) (hwp : wfELB prev = true)
    (hpn : parseableEL nxt = true) (hwn : wfELB nxt = true)
    (hen : elEq prev nxt = true) :
    ∃ f', save_cache nxt f cfg5 = .ok f' ∧ c4Inv f' s0 nxt := by
  obtain ⟨a, rfl, hpa, hwa, hats, haraws, hap⟩ := hInv
  obtain ⟨a', b', hload, hats', haraws', hbts', hbraws'⟩ :=
    load_cacheData_two cfg5 a prev hpa hpp
  have hwa' : wfELB a' = true := by rw [wfELB_congr haraws']; exact hwa
  have h1 : elEq b' a' = true := by
    have he : elEq b' a' = elEq prev a := by
      rw [elEq_congr_left hbraws', elEq_congr_right haraws']
    rw [he]
    exact elEq_symm hwa hwp hap
  have h2 : elEq nxt b' = true := by
    rw [elEq_congr_right hbraws' nxt]
    exact elEq_symm hwp hwn hen
  have hd : deduplicate_consecutive [a', b', nxt] = [a', nxt] := dedup_three h1 h2
  refine ⟨.json (cacheData cfg5 [a', nxt]), ?_, ?_⟩
  · unfold save_cache
    rw [hload]
    simp [Bind.bind, Except.bind, cfg5, hd, trimEntries]
  · refine ⟨a', rfl, ?_, hwa', ?_, ?_, ?_⟩
    · rw [parseableEL_congr haraws']; exact hpa
    · rw [hats']; exact hats
    · rw [haraws']; exact haraws
    · rw [elEq_congr_left haraws' nxt]
      exact elEq_trans hap hen

theorem c4_fold :
    ∀ (rest : List EmployeeList) (f : CacheFile) (s0 prev : EmployeeList),
      c4Inv f s0 prev →
      parseableEL prev = true → wfELB prev = true →
      (∀ x ∈ rest, parseableEL x = true ∧ wfELB x = true) →
      List.Chain (fun x y => elEq x y = true) prev rest →
      ∃ f', foldSaves f rest = .ok f' ∧ c4Inv f' s0 (rest.getLastD prev) := by
  intro rest
  induction rest with
  | nil =>
    intro f s0 prev hInv _ _ _ _
    exact ⟨f, rfl, by simpa using hInv⟩
  | cons nxt rest ih =>
    intro f s0 prev hInv hpp hwp hrest hchain
    rw [List.chain_cons] at hchain
    obtain ⟨hen, hchain'⟩ := hchain
    obtain ⟨hpn, hwn⟩ := hrest nxt (by simp)
    obtain ⟨f1, hsave, hInv1⟩ := c4_step f s0 prev nxt hInv hpp hwp hpn hwn hen
    obtain ⟨f', hfold, hInv'⟩ := ih f1 s0 nxt hInv1 hpn hwn
      (fun x hx => hrest x (by simp [hx])) hchain'
    refine ⟨f', ?_, ?_⟩
    · rw [foldSaves, hsave]
      exact hfold
    · rw [List.getLastD_cons]
      exact hInv'

/-- C4: with `deduplicate_consecutive = True` and `max_entries = 5`, starting
from an empty cache, saving a chain of consecutively content-equal snapshots
(`EmployeeList.__eq__` between each snapshot and the next) twice, three
times, or more leaves a persisted sequence of exactly 2 entries: the first
of the run (timestamp and raw content preserved) and the last of the
run.  (The snapshots must be parseable/well-formed, as every snapshot the
system produces is; otherwise the second save would itself raise.) -/
theorem consecutive_equal_saves_persist_two (s0 : EmployeeList)
    (rest : List EmployeeList)
    (hp0 : parseableEL s0 = true) (hw0 : wfELB s0 = true)
    (hrest : ∀ x ∈ rest, parseableEL x = true ∧ wfELB x = true)
    (hchain : List.Chain (fun x y => elEq x y = true) s0 rest)
    (hne : rest ≠ []) :
    ∃ f' a, foldSaves .missing (s0 :: rest) = .ok f' ∧
      persistedEntries f' = some [EmployeeList.to_dict a,
        EmployeeList.to_dict (rest.getLastD s0)] ∧
      (persistedEntries f').map List.length = some 2 ∧
      a.timestamp = s0.timestamp ∧ elRaws a = elRaws s0 := by
  cases rest with
  | nil => exact absurd rfl hne
  | cons s1 rest' =>
    rw [List.chain_cons] at hchain
    obtain ⟨h01, hchain'⟩ := hchain
    obtain ⟨hp1, hw1⟩ := hrest s1 (by simp)
    obtain ⟨f2, hsave2, hInv2⟩ := c4_second s0 s1 hp0 hw0 hp1 hw1 h01
    obtain ⟨f', hfold, hInv'⟩ := c4_fold rest' f2 s0 s1 hInv2 hp1 hw1
      (fun x hx => hrest x (by simp [hx])) hchain'
    obtain ⟨a, rfl, hpa, hwa, hats, haraws, _⟩ := hInv'
    refine ⟨.json (cacheData cfg5 [a, rest'.getLastD s1]), a, ?_, ?_, ?_, hats, haraws⟩
    · have e1 : foldSaves .missing (s0 :: s1 :: rest') =
          foldSaves (.json (cacheData cfg5 [s0])) (s1 :: rest') := by
        rw [foldSaves, save_missing]
      have e2 : foldSaves (.json (cacheData cfg5 [s0])) (s1 :: rest') =
          foldSaves f2 rest' := by
        rw [foldSaves, hsave2]
      rw [e1, e2, hfold]
    · rw [List.getLastD_cons, persistedEntries_cacheData]
      simp
    · rw [persistedEntries_cacheData]
      simp

/-- The shared employee of the C4 witness scenario. -/
def c4emp : Employee :=
  ⟨"5", .str "", .str "E", "active", "", "", .dict [("id", .str "5"), ("fullName", .str "E")]⟩

/-- First snapshot of the C4 witness scenario. -/
def c4s0 : EmployeeList := ⟨"2024-01-01T00:00:00", .int 1, [c4emp]⟩

/-- Second (content-equal) snapshot of the C4 witness scenario. -/
def c4s1 : EmployeeList := ⟨"2024-01-02T00:00:00", .int 1, [c4emp]⟩

/-- Third (content-equal) snapshot of the C4 witness scenario. -/
def c4s2 : EmployeeList := ⟨"2024-01-03T00:00:00", .int 1, [c4emp]⟩

/-- Witness for C4: three consecutive saves of content-equal snapshots into
an empty cache persist exactly two entries. -/
theorem consecutive_equal_saves_persist_two_witness :
    ∃ f' a, foldSaves .missing (c4s0 :: [c4s1, c4s2]) = .ok f' ∧
      persistedEntries f' = some [EmployeeList.to_dict a,
        EmployeeList.to_dict ([c4s1, c4s2].getLastD c4s0)] ∧
      (persistedEntries f').map List.length = some 2 ∧
      a.timestamp = c4s0.timestamp ∧ elRaws a = elRaws c4s0 := by
  have heq12 : elEq c4s0 c4s1 = true := by
    simp [elEq, empListEqB, empEq, pyEq, pyEqList, pyEqOpt, pyEqDictF, pyEqDictB,
      lookup, List.find?, toNum, c4s0, c4s1, c4emp]
  have heq23 : elEq c4s1 c4s2 = true := by
    simp [elEq, empListEqB, empEq, pyEq, pyEqList, pyEqOpt, pyEqDictF, pyEqDictB,
      lookup, List.find?, toNum, c4s1, c4s2, c4emp]
  have hwf : wfELB c4s0 = true ∧ wfELB c4s1 = true ∧ wfELB c4s2 = true := by
    refine ⟨?_, ?_, ?_⟩ <;>
      simp [wfELB, elRaws, wfV, wfList, wfKvs, keysNodup, c4s0, c4s1, c4s2, c4emp]
  exact consecutive_equal_saves_persist_two c4s0 [c4s1, c4s2] rfl hwf.1
    (by
      intro x hx
      simp at hx
      rcases hx with rfl | rfl
      · exact ⟨rfl, hwf.2.1⟩
      · exact ⟨rfl, hwf.2.2⟩)
    (by
      rw [List.chain_cons, List.chain_cons]
      exact ⟨heq12, heq23, List.Chain.nil⟩)
    (by simp)

/-! ## Ignore-list completeness (claim C3) -/

/-- Splitting a dot-joined char list at its first admissible boundary: if
`a ++ '.' :: t = p ++ '.' :: s0` and `t` is dot-free, then either the two
dots coincide (`a = p`) or the final dot of `p` lies strictly inside `a`. -/
theorem dotSplit_aux :
    ∀ (a p t s0 : List Char), a ++ '.' :: t = p ++ '.' :: s0 → '.' ∉ t →
      (a = p ∧ t = s0) ∨ (∃ m, a = p ++ '.' :: m) := by
  intro a
  induction a with
  | nil =>
    intro p t s0 heq hdot
    cases p with
    | nil =>
      left
      simp at heq
      exact ⟨rfl, heq⟩
    | cons c p' =>
      simp at heq
      obtain ⟨hc, hs⟩ := heq
      exfalso
      apply hdot
      rw [hs]
      simp
  | cons c a' ih =>
    intro p t s0 heq hdot
    cases p with
    | nil =>
      simp at heq
      obtain ⟨hc, hs⟩ := heq
      right
      exact ⟨a', by simp [hc]⟩
    | cons c2 p' =>
      simp at heq
      obtain ⟨hc, hs⟩ := heq
      rcases ih p' t s0 hs hdot with ⟨h1, h2⟩ | ⟨m, hm⟩
      · left
        exact ⟨by rw [hc, h1], h2⟩
      · right
        exact ⟨m, by rw [hc, hm]; simp⟩

theorem digitChar_ne_dot (n : Nat) : Nat.digitChar n ≠ '.' := by
  rcases Nat.lt_or_ge n 16 with h | h
  · interval_cases n <;> decide
  · intro hc
    unfold Nat.digitChar at hc
    rw [if_neg (by omega : ¬n = 0), if_neg (by omega : ¬n = 1),
        if_neg (by omega : ¬n = 2), if_neg (by omega : ¬n = 3),
        if_neg (by omega : ¬n = 4), if_neg (by omega : ¬n = 5),
        if_neg (by omega : ¬n = 6), if_neg (by omega : ¬n = 7),
        if_neg (by omega : ¬n = 8), if_neg (by omega : ¬n = 9),
        if_neg (by omega : ¬n = 10), if_neg (by omega : ¬n = 11),
        if_neg (by omega : ¬n = 12), if_neg (by omega : ¬n = 13),
        if_neg (by omega : ¬n = 14), if_neg (by omega : ¬n = 15)] at hc
    exact absurd hc (by decide)

theorem toDigitsCore_dotfree (b : Nat) :
    ∀ (fuel n : Nat) (ds : List Char), (∀ c ∈ ds, c ≠ '.') →
      ∀ c ∈ Nat.toDigitsCore b fuel n ds, c ≠ '.' := by
  intro fuel
  induction fuel with
  | zero =>
    intro n ds hds c hc
    rw [Nat.toDigitsCore] at hc
    exact hds c hc
  | succ fuel ih =>
    intro n ds hds c hc
    rw [Nat.toDigitsCore] at hc
    split at hc
    · rcases List.mem_cons.mp hc with rfl | hmem
      · exact digitChar_ne_dot _
      · exact hds c hmem
    · refine ih (n / b) (Nat.digitChar (n % b) :: ds) ?_ c hc
      intro c2 hc2
      rcases List.mem_cons.mp hc2 with rfl | hmem
      · exact digitChar_ne_dot _
      · exact hds c2 hmem

theorem dotFreeStr_natToString (i : Nat) : dotFreeStr (toString i) = true := by
  show dotFreeStr (Nat.repr i) = true
  rw [dotFreeStr, List.all_eq_true]
  intro c hc
  simp only [Nat.repr] at hc
  have hmem : c ∈ Nat.toDigits 10 i := by
    simpa [List.asString] using hc
  have := toDigitsCore_dotfree 10 (i + 1) i [] (by simp) c (by
    rw [Nat.toDigits] at hmem
    exact hmem)
  simpa using this

theorem dotFreeStr_append (a b : String) :
    dotFreeStr (a ++ b) = (dotFreeStr a && dotFreeStr b) := by
  simp [dotFreeStr, String.data_append, List.all_append]

theorem dotFreeStr_bracket (i : Nat) :
    dotFreeStr ("[" ++ toString i ++ "]") = true := by
  rw [dotFreeStr_append, dotFreeStr_append, dotFreeStr_natToString]
  decide

theorem dotFreeKvs_key :
    ∀ {kvs : List (String × Value)}, dotFreeKvs kvs = true →
      ∀ {k : String}, k ∈ kvs.map Prod.fst → dotFreeStr k = true := by
  intro kvs
  induction kvs with
  | nil => intro _ k hm; simp at hm
  | cons kv rest ih =>
    obtain ⟨k1, v1⟩ := kv
    intro hdf k hm
    rw [dotFreeKvs, Bool.and_eq_true, Bool.and_eq_true] at hdf
    rcases List.mem_cons.mp hm with rfl | hmem
    · exact hdf.1.1
    · exact ih hdf.2 hmem

theorem dotFreeKvs_val :
    ∀ {kvs : List (String × Value)}, dotFreeKvs kvs = true →
      ∀ {k : String} {v : Value}, (k, v) ∈ kvs → dotFreeV v = true := by
  intro kvs
  induction kvs with
  | nil => intro _ k v hm; simp at hm
  | cons kv rest ih =>
    obtain ⟨k1, v1⟩ := kv
    intro hdf k v hm
    rw [dotFreeKvs, Bool.and_eq_true, Bool.and_eq_true] at hdf
    rcases List.mem_cons.mp hm with heq | hmem
    · obtain ⟨rfl, rfl⟩ := Prod.mk.injEq _ _ _ _ ▸ heq
      exact hdf.1.2
    · exact ih hdf.2 hmem

theorem dotFree_dict_kvs {kvs : List (String × Value)}
    (h : dotFreeV (.dict kvs) = true) : dotFreeKvs kvs = true := by
  rw [dotFreeV] at h
  exact h

theorem dotFree_getD {kvs : List (String × Value)} (h : dotFreeV (.dict kvs) = true)
    (k : String) : dotFreeV (dictGet kvs k .null) = true := by
  unfold dictGet
  cases hl : lookup kvs k with
  | none => rw [dotFreeV]
  | some v => exact dotFreeKvs_val (dotFree_dict_kvs h) (lookup_mem hl)

theorem dotFree_unionKeys {kvs1 kvs2 : List (String × Value)}
    (h1 : dotFreeV (.dict kvs1) = true) (h2 : dotFreeV (.dict kvs2) = true)
    {k : String} (hk : k ∈ unionKeys kvs1 kvs2) : dotFreeStr k = true := by
  rw [unionKeys, List.mem_dedup, List.mem_append] at hk
  rcases hk with hk | hk
  · exact dotFreeKvs_key (dotFree_dict_kvs h1) hk
  · exact dotFreeKvs_key (dotFree_dict_kvs h2) hk

theorem dotFree_list_mem {xs : List Value} (h : dotFreeV (.list xs) = true)
    {a : Value} (hm : a ∈ xs ∨ a = Value.null) : dotFreeV a = true := by
  rcases hm with hm | rfl
  · rw [dotFreeV] at h
    induction xs with
    | nil => simp at hm
    | cons y ys ih =>
      rw [dotFreeList, Bool.and_eq_true] at h
      rcases List.mem_cons.mp hm with rfl | hmem
      · exact h.1
      · exact ih h.2 hmem
  · rw [dotFreeV]

/-- The path built by the recursion of the differ: fold `extend_path` along the
segments visited. -/
def joinPath (path : String) (segs : List String) : String :=
  segs.foldl extendPath path

theorem joinPath_nil (path : String) : joinPath path [] = path := rfl

theorem joinPath_cons (path s : String) (segs : List String) :
    joinPath path (s :: segs) = joinPath (extendPath path s) segs := rfl

theorem extendPath_data_of_ne {path : String} (h : path ≠ "") (s : String) :
    (extendPath path s).data = path.data ++ '.' :: s.data := by
  rw [extendPath, if_neg h, String.data_append, String.data_append]
  simp [show ("." : String).data = ['.'] from rfl]

/-- If a joined path of dot-free segments decomposes as `p ++ "." ++ s`,
then either the final dot of `p` already lies inside the accumulator, or `p` is
the join of a prefix of the segments. -/
theorem jp_prefix_of_dotsep :
    ∀ (segs : List String) (acc p s : String),
      (∀ t ∈ segs, dotFreeStr t = true) →
      joinPath acc segs = p ++ "." ++ s →
      (∃ s0, acc = p ++ "." ++ s0) ∨ (∃ pre, pre <+: segs ∧ joinPath acc pre = p) := by
  intro segs
  induction segs with
  | nil =>
    intro acc p s _ heq
    rw [joinPath_nil] at heq
    exact Or.inl ⟨s, heq⟩
  | cons t rest ih =>
    intro acc p s hdf heq
    rw [joinPath_cons] at heq
    rcases ih (extendPath acc t) p s (fun u hu => hdf u (by simp [hu])) heq with
      ⟨s0, hacc'⟩ | ⟨pre, hpre, hjp⟩
    · have hdotstr : ("." : String).data = ['.'] := rfl
      have hdf_t : '.' ∉ t.data := by
        intro hdot
        have hdf' := hdf t (by simp)
        rw [dotFreeStr, List.all_eq_true] at hdf'
        simpa using hdf' '.' hdot
      by_cases hacc : acc = ""
      · subst hacc
        rw [extendPath, if_pos rfl] at hacc'
        exfalso
        apply hdf_t
        have hdata : t.data = p.data ++ '.' :: s0.data := by
          rw [hacc']
          simp [String.data_append, hdotstr]
        rw [hdata]
        simp
      · have hdata : acc.data ++ '.' :: t.data = p.data ++ '.' :: s0.data := by
          have h1 := extendPath_data_of_ne hacc t
          rw [hacc'] at h1
          rw [← h1]
          simp [String.data_append, hdotstr]
        rcases dotSplit_aux acc.data p.data t.data s0.data hdata hdf_t with
          ⟨h1, _⟩ | ⟨m, hm⟩
        · refine Or.inr ⟨[], List.nil_prefix, ?_⟩
          rw [joinPath_nil]
          exact String.ext h1
        · refine Or.inl ⟨String.mk m, ?_⟩
          apply String.ext
          rw [hm]
          simp [String.data_append, hdotstr]
    · refine Or.inr ⟨t :: pre, ?_, ?_⟩
      · obtain ⟨u, hu⟩ := hpre
        exact ⟨u, by rw [← hu]; simp⟩
      · rw [joinPath_cons]
        exact hjp

theorem deepDiff_path_structure (o1 o2 : Value) (path : String) (ign : List String) :
    dotFreeV o1 = true → dotFreeV o2 = true →
    ∀ c ∈ deepDiff o1 o2 path ign,
      ∃ segs : List String, (∀ s ∈ segs, dotFreeStr s = true) ∧
        c.field_path = joinPath path segs ∧
        ∀ pre, pre <+: segs → joinPath path pre ∉ ign := by
  induction o1, o2, path, ign using deepDiff.induct with
  | case1 o1 o2 path ign hin =>
    intro _ _ c hc
    rw [deepDiff.eq_def] at hc
    simp [hin] at hc
  | case2 o1 o2 path ign hnin heq =>
    intro _ _ c hc
    rw [deepDiff.eq_def] at hc
    simp [hnin, heq] at hc
  | case3 path ign hnin kvs1 kvs2 hne ih =>
    intro hd1 hd2 c hc
    rw [deepDiff.eq_def] at hc
    simp only [if_neg hnin, if_neg hne, List.mem_flatMap] at hc
    obtain ⟨k, hk, hc⟩ := hc
    obtain ⟨segs', hdf', hfp', hpre'⟩ := ih k (dotFree_getD hd1 k) (dotFree_getD hd2 k) c hc
    refine ⟨k :: segs', ?_, ?_, ?_⟩
    · intro s hs
      rcases List.mem_cons.mp hs with rfl | hmem
      · exact dotFree_unionKeys hd1 hd2 hk
      · exact hdf' s hmem
    · rw [joinPath_cons]
      exact hfp'
    · intro pre hpre
      cases pre with
      | nil =>
        rw [joinPath_nil]
        exact hnin
      | cons s pre' =>
        obtain ⟨rfl, hpre''⟩ := (List.cons_prefix_cons).mp hpre
        rw [joinPath_cons]
        exact hpre' pre' hpre''
  | case4 path ign hnin xs ys hne ih =>
    intro hd1 hd2 c hc
    rw [deepDiff.eq_def] at hc
    simp only [if_neg hnin, if_neg hne, List.mem_flatMap] at hc
    obtain ⟨q, _, hc⟩ := hc
    obtain ⟨⟨i, a, b⟩, hmem⟩ := q
    have hz : (a, b) ∈ zipLongest xs ys :=
      List.getElem?_mem (List.mem_enum_iff_getElem?.mp hmem)
    have hab := mem_zipLongest hz
    obtain ⟨segs', hdf', hfp', hpre'⟩ := ih ⟨(i, a, b), hmem⟩
      (dotFree_list_mem hd1 hab.1) (dotFree_list_mem hd2 hab.2) c hc
    refine ⟨("[" ++ toString i ++ "]") :: segs', ?_, ?_, ?_⟩
    · intro s hs
      rcases List.mem_cons.mp hs with rfl | hmem2
      · exact dotFreeStr_bracket i
      · exact hdf' s hmem2
    · rw [joinPath_cons]
      exact hfp'
    · intro pre hpre
      cases pre with
      | nil =>
        rw [joinPath_nil]
        exact hnin
      | cons s pre' =>
        obtain ⟨rfl, hpre''⟩ := (List.cons_prefix_cons).mp hpre
        rw [joinPath_cons]
        exact hpre' pre' hpre''
  | case5 o1 o2 path ign hnin hne hnd hnl =>
    intro _ _ c hc
    have hleaf : deepDiff o1 o2 path ign = [⟨path, o1, o2⟩] := by
      rw [deepDiff.eq_def]
      rw [if_neg hnin, if_neg hne]
      cases o1 <;> cases o2 <;>
        first
        | (exfalso; exact hnd _ _ rfl rfl)
        | (exfalso; exact hnl _ _ rfl rfl)
        | rfl
    rw [hleaf] at hc
    simp at hc
    subst hc
    refine ⟨[], by simp, by rw [joinPath_nil], ?_⟩
    intro pre hpre
    rw [List.prefix_nil] at hpre
    subst hpre
    rw [joinPath_nil]
    exact hnin

theorem deepDiff_field_path_not_ignored (o1 o2 : Value) (path : String)
    (ign : List String) : ∀ c ∈ deepDiff o1 o2 path ign, c.field_path ∉ ign := by
  induction o1, o2, path, ign using deepDiff.induct with
  | case1 o1 o2 path ign hin =>
    intro c hc
    rw [deepDiff.eq_def] at hc
    simp [hin] at hc
  | case2 o1 o2 path ign hnin heq =>
    intro c hc
    rw [deepDiff.eq_def] at hc
    simp [hnin, heq] at hc
  | case3 path ign hnin kvs1 kvs2 hne ih =>
    intro c hc
    rw [deepDiff.eq_def] at hc
    simp only [if_neg hnin, if_neg hne, List.mem_flatMap] at hc
    obtain ⟨k, _, hc⟩ := hc
    exact ih k c hc
  | case4 path ign hnin xs ys hne ih =>
    intro c hc
    rw [deepDiff.eq_def] at hc
    simp only [if_neg hnin, if_neg hne, List.mem_flatMap] at hc
    obtain ⟨q, _, hc⟩ := hc
    exact ih q c hc
  | case5 o1 o2 path ign hnin hne hnd hnl =>
    intro c hc
    have hleaf : deepDiff o1 o2 path ign = [⟨path, o1, o2⟩] := by
      rw [deepDiff.eq_def]
      rw [if_neg hnin, if_neg hne]
      cases o1 <;> cases o2 <;>
        first
        | (exfalso; exact hnd _ _ rfl rfl)
        | (exfalso; exact hnl _ _ rfl rfl)
        | rfl
    rw [hleaf] at hc
    simp at hc
    subst hc
    exact hnin

/-- C3 (amended): no `FieldChange` emitted by `_deep_diff` has a
`field_path` equal to an ignored path — for all inputs, since every
emission is guarded by the `path in ignored_paths` check — and for inputs
whose mapping keys contain no `'.'` character (true of the employee records
this system diffs by path convention) none has a `field_path` nested under
an ignored path either.  Without the dot-free proviso the nesting half
fails: a mapping key containing `'.'` can produce a `field_path` textually
nested under an ignored path whose subtree was never visited (see the
counterexample). -/
theorem ignored_paths_never_reported (o1 o2 : Value) (ign : List String) (p : String)
    (hp : p ∈ ign) :
    (∀ c ∈ deepDiff o1 o2 "" ign, c.field_path ≠ p) ∧
    (dotFreeV o1 = true → dotFreeV o2 = true →
      ∀ c ∈ deepDiff o1 o2 "" ign, ¬ ∃ s, c.field_path = p ++ "." ++ s) := by
  constructor
  · intro c hc hcontra
    apply deepDiff_field_path_not_ignored o1 o2 "" ign c hc
    rw [hcontra]
    exact hp
  · intro h1 h2 c hc
    obtain ⟨segs, hdf, hfp, hpre⟩ := deepDiff_path_structure o1 o2 "" ign h1 h2 c hc
    rintro ⟨s, hs⟩
    rw [hfp] at hs
    rcases jp_prefix_of_dotsep segs "" p s hdf hs with ⟨s0, h0⟩ | ⟨pre, hpre', hjp⟩
    · have hd0 : ("" : String).data = (p ++ "." ++ s0).data := by rw [h0]
      rw [String.data_append, String.data_append] at hd0
      simp [show ("." : String).data = ['.'] from rfl] at hd0
    · apply hpre pre hpre'
      rw [hjp]
      exact hp

/-- Witness for C3 (amended): diffing `{"x": 1}` against `{"x": 2}` with
`"y"` ignored emits the change at `"x"`, which is neither `"y"` nor nested
under `"y"`. -/
theorem ignored_paths_never_reported_witness :
    (FieldChange.mk "x" (.int 1) (.int 2)).field_path ≠ "y" ∧
    ¬ ∃ s, (FieldChange.mk "x" (.int 1) (.int 2)).field_path = "y" ++ "." ++ s := by
  have h := ignored_paths_never_reported (.dict [("x", .int 1)])
    (.dict [("x", .int 2)]) ["y"] "y" (by simp)
  have hmem : (FieldChange.mk "x" (.int 1) (.int 2)) ∈
      deepDiff (.dict [("x", .int 1)]) (.dict [("x", .int 2)]) "" ["y"] := by
    simp [deepDiff, pyEq, pyEqList, pyEqOpt, pyEqDictF, pyEqDictB, lookup,
      unionKeys, dictGet, extendPath, toNum, List.find?]
  exact ⟨h.1 _ hmem,
    h.2 (by simp [dotFreeV, dotFreeKvs, dotFreeStr])
      (by simp [dotFreeV, dotFreeKvs, dotFreeStr]) _ hmem⟩

/-- Counterexample to C3 as stated: with `"a.b"` ignored, diffing
`{"a": {"b.c": 1}}` against `{"a": {"b.c": 2}}` — the inner mapping key
itself contains a dot — emits a `FieldChange` whose `field_path` `"a.b.c"`
is textually nested under the ignored path `"a.b"`. -/
theorem nested_path_emitted_under_ignored_ancestor :
    deepDiff (.dict [("a", .dict [("b.c", .int 1)])])
      (.dict [("a", .dict [("b.c", .int 2)])]) "" ["a.b"] =
      [⟨"a.b.c", .int 1, .int 2⟩] ∧
    ("a.b.c" : String) = "a.b" ++ "." ++ "c" ∧
    ("a.b" : String) ∈ ["a.b"] := by
  refine ⟨?_, rfl, by simp⟩
  simp [deepDiff, pyEq, pyEqList, pyEqOpt, pyEqDictF, pyEqDictB, lookup,
    unionKeys, dictGet, extendPath, toNum, List.find?]
